import Mathlib

/-!
# Verification of the dir_diff manifest/diff/copy pipeline

Shallow embedding of `src/dir_diff_multi.py`: per-file SHA-256 hashing
(`hash_file`), manifest construction over a modelled filesystem tree
(`build_manifest`), JSON persistence (`save_manifest` / `load_manifest`,
modelling Python's `json.dump(..., indent=2)` with `ensure_ascii` and
`json.load`), manifest comparison (`diff_manifests`), and differential
copying (`copy_files` / `extract_differential`).

Machine integers do not occur in the Python source (Python integers are
unbounded), so `Nat`/`Int` model them directly; the 32-bit arithmetic
inside SHA-256 is made explicit with `% 2^32`.
-/

namespace DirDiff

/-! ## SHA-256 over byte lists

Model of `hashlib.sha256`: FIPS 180-4 over a list of bytes (each a `Nat`
< 256), producing the lowercase hex digest exactly as `hexdigest` does.
-/

/-- Truncate to a 32-bit word. -/
def w32 (n : Nat) : Nat := n % 4294967296

/-- Rotate a 32-bit word right by `b` bits. -/
def rotr (b n : Nat) : Nat := w32 ((n >>> b) ||| (n <<< (32 - b)))

/-- 32-bit bitwise complement. -/
def not32 (n : Nat) : Nat := n ^^^ 4294967295

def ch (x y z : Nat) : Nat := (x &&& y) ^^^ (not32 x &&& z)

def maj (x y z : Nat) : Nat := (x &&& y) ^^^ (x &&& z) ^^^ (y &&& z)

def bigSigma0 (x : Nat) : Nat := rotr 2 x ^^^ rotr 13 x ^^^ rotr 22 x

def bigSigma1 (x : Nat) : Nat := rotr 6 x ^^^ rotr 11 x ^^^ rotr 25 x

def smallSigma0 (x : Nat) : Nat := rotr 7 x ^^^ rotr 18 x ^^^ (x >>> 3)

def smallSigma1 (x : Nat) : Nat := rotr 17 x ^^^ rotr 19 x ^^^ (x >>> 10)

/-- The 64 SHA-256 round constants. -/
def sha256K : List Nat :=
  [1116352408, 1899447441, 3049323471, 3921009573, 961987163, 1508970993,
   2453635748, 2870763221, 3624381080, 310598401, 607225278, 1426881987,
   1925078388, 2162078206, 2614888103, 3248222580, 3835390401, 4022224774,
   264347078, 604807628, 770255983, 1249150122, 1555081692, 1996064986,
   2554220882, 2821834349, 2952996808, 3210313671, 3336571891, 3584528711,
   113926993, 338241895, 666307205, 773529912, 1294757372, 1396182291,
   1695183700, 1986661051, 2177026350, 2456956037, 2730485921, 2820302411,
   3259730800, 3345764771, 3516065817, 3600352804, 4094571909, 275423344,
   430227734, 506948616, 659060556, 883997877, 958139571, 1322822218,
   1537002063, 1747873779, 1955562222, 2024104815, 2227730452, 2361852424,
   2428436474, 2756734187, 3204031479, 3329325298]

/-- The eight working variables of the compression function. -/
structure Hash8 where
  a : Nat
  b : Nat
  c : Nat
  d : Nat
  e : Nat
  f : Nat
  g : Nat
  h : Nat

/-- Initial hash value H⁽⁰⁾. -/
def sha256Init : Hash8 :=
  ⟨0x6a09e667, 0xbb67ae85, 0x3c6ef372, 0xa54ff53a,
   0x510e527f, 0x9b05688c, 0x1f83d9ab, 0x5be0cd19⟩

/-- One compression round with round constant `k` and schedule word `w`. -/
def sha256Round (st : Hash8) (k w : Nat) : Hash8 :=
  let t1 := w32 (st.h + bigSigma1 st.e + ch st.e st.f st.g + k + w)
  let t2 := w32 (bigSigma0 st.a + maj st.a st.b st.c)
  ⟨w32 (t1 + t2), st.a, st.b, st.c, w32 (st.d + t1), st.e, st.f, st.g⟩

/-- Extend the message schedule; `acc` holds the words produced so far in
reverse order, `n` counts the words still to produce. -/
def extendSchedule : Nat → List Nat → List Nat
  | 0, acc => acc.reverse
  | n + 1, acc =>
      extendSchedule n
        (w32 (smallSigma1 (acc.getD 1 0) + acc.getD 6 0 +
              smallSigma0 (acc.getD 14 0) + acc.getD 15 0) :: acc)

/-- Big-endian bytes of `n`, `width` bytes wide. -/
def toBytesBE : Nat → Nat → List Nat
  | 0, _ => []
  | width + 1, n => toBytesBE width (n / 256) ++ [n % 256]

/-- Group bytes into big-endian 32-bit words (4 bytes each). -/
def bytesToWords : List Nat → List Nat
  | b0 :: b1 :: b2 :: b3 :: rest =>
      (((b0 * 256 + b1) * 256 + b2) * 256 + b3) :: bytesToWords rest
  | _ => []

/-- Process one 64-byte block. -/
def sha256Block (st : Hash8) (block : List Nat) : Hash8 :=
  let ws := extendSchedule 48 (bytesToWords block).reverse
  let r := (sha256K.zip ws).foldl (fun s kw => sha256Round s kw.1 kw.2) st
  ⟨w32 (st.a + r.a), w32 (st.b + r.b), w32 (st.c + r.c), w32 (st.d + r.d),
   w32 (st.e + r.e), w32 (st.f + r.f), w32 (st.g + r.g), w32 (st.h + r.h)⟩

/-- SHA-256 padding: a 0x80 byte, zeros, then the bit length as 8 bytes. -/
def sha256Pad (len : Nat) : List Nat :=
  128 :: List.replicate ((119 - len % 64) % 64) 0 ++ toBytesBE 8 (len * 8)

/-- The chunks a `while True: chunk = f.read(n)` loop sees: consecutive
`n`-element slices (the last one shorter), nothing when `n = 0` (`read(0)`
is empty at once, so the loop breaks immediately); `fuel` bounds the
recursion and any `fuel ≥ length` is enough. -/
def chunksGo (fuel n : Nat) : List α → List (List α)
  | [] => []
  | l@(_ :: _) =>
      if n = 0 then []
      else
        match fuel with
        | 0 => [l]
        | fuel + 1 => l.take n :: chunksGo fuel n (l.drop n)

def chunksOf (n : Nat) (l : List α) : List (List α) := chunksGo l.length n l

/-- The 32 digest bytes of a byte message. -/
def sha256Bytes (msg : List Nat) : List Nat :=
  let padded := msg ++ sha256Pad msg.length
  let final := (chunksOf 64 padded).foldl sha256Block sha256Init
  toBytesBE 4 final.a ++ toBytesBE 4 final.b ++ toBytesBE 4 final.c ++
  toBytesBE 4 final.d ++ toBytesBE 4 final.e ++ toBytesBE 4 final.f ++
  toBytesBE 4 final.g ++ toBytesBE 4 final.h

/-- Lowercase hex digit for `n < 16`. -/
def hexDigitChar (n : Nat) : Char :=
  if n < 10 then Char.ofNat (48 + n) else Char.ofNat (87 + n)

def byteToHex (b : Nat) : List Char := [hexDigitChar (b / 16), hexDigitChar (b % 16)]

def bytesToHex (bs : List Nat) : String :=
  ⟨bs.foldr (fun b acc => byteToHex b ++ acc) []⟩

/-- `hashlib.sha256(msg).hexdigest()`. -/
def sha256hex (msg : List Nat) : String := bytesToHex (sha256Bytes msg)

/-! ## JSON values

Model of the Python `json` module as used by `save_manifest` / `load_manifest`.
JSON numbers are modelled as integers only: the program never produces a
fractional number (sizes are byte counts), so floats are out of the model.
A mutual inductive (instead of nesting `List`) keeps every recursion
structural and kernel-reducible.
-/

mutual
inductive Json where
  | null : Json
  | bool (b : Bool) : Json
  | num (n : Int) : Json
  | str (s : String) : Json
  | arr (xs : JsonArr) : Json
  | obj (kvs : JsonObj) : Json
deriving DecidableEq
inductive JsonArr where
  | nil : JsonArr
  | cons (v : Json) (tl : JsonArr) : JsonArr
deriving DecidableEq
inductive JsonObj where
  | nil : JsonObj
  | cons (k : String) (v : Json) (tl : JsonObj) : JsonObj
deriving DecidableEq
end

/-- Python dict subscript `o[k]` on a parsed JSON object: the value at the
last occurrence of `k` (later duplicate keys win in `json.load`), or `none`
(a `KeyError` at the call site) when the key is absent. -/
def JsonObj.getLast : JsonObj → String → Option Json
  | .nil, _ => none
  | .cons k v tl, key => match JsonObj.getLast tl key with
    | some r => some r
    | none => if k = key then some v else none

/-- Python `k in o` / iteration key list of a parsed JSON object. -/
def JsonObj.keyList : JsonObj → List String
  | .nil => []
  | .cons k _ tl => k :: JsonObj.keyList tl

/-- The opening brace character, written by code point. -/
def lbraceChar : Char := Char.ofNat 123

/-- The closing brace character, written by code point. -/
def rbraceChar : Char := Char.ofNat 125

/-! ### Serialization (`json.dump(manifest, f, indent=2)`)

`json.dump` is called in the source only on manifests (a dict mapping a
relative path string to `{"hash": hexdigest, "size": int}`), so the encoder
is modelled at exactly that shape, following CPython's encoder with its
defaults: `ensure_ascii=True` (every char outside 0x20–0x7E escaped,
lowercase hex, astral chars as surrogate pairs), `indent=2`, separators
`(",", ": ")`.
-/

/-- Decimal digit character. -/
def digitChar (d : Nat) : Char := Char.ofNat (48 + d)

/-- Decimal digits of `n`, most significant first; `fuel ≥ n` suffices. -/
def natCharsGo : Nat → Nat → List Char → List Char
  | 0, n, acc => digitChar (n % 10) :: acc
  | fuel + 1, n, acc =>
      if n < 10 then digitChar n :: acc
      else natCharsGo fuel (n / 10) (digitChar (n % 10) :: acc)

def natChars (n : Nat) : List Char := natCharsGo n n []

/-- Python `repr` of an int (as emitted into JSON). -/
def intChars (n : Int) : List Char :=
  if n < 0 then '-' :: natChars n.natAbs else natChars n.natAbs

/-- Lowercase 4-digit hex of `n < 65536`. -/
def hex4Chars (n : Nat) : List Char :=
  [hexDigitChar (n / 4096 % 16), hexDigitChar (n / 256 % 16),
   hexDigitChar (n / 16 % 16), hexDigitChar (n % 16)]

/-- CPython `json` escaping of one character (`ensure_ascii=True`). -/
def escapeChar (c : Char) : List Char :=
  if c = '"' then ['\\', '"']
  else if c = '\\' then ['\\', '\\']
  else if c.toNat = 8 then ['\\', 'b']
  else if c.toNat = 12 then ['\\', 'f']
  else if c.toNat = 10 then ['\\', 'n']
  else if c.toNat = 13 then ['\\', 'r']
  else if c.toNat = 9 then ['\\', 't']
  else if 32 ≤ c.toNat ∧ c.toNat ≤ 126 then [c]
  else if c.toNat < 65536 then '\\' :: 'u' :: hex4Chars c.toNat
  else
    '\\' :: 'u' :: hex4Chars (55296 + (c.toNat - 65536) / 1024) ++
    '\\' :: 'u' :: hex4Chars (56320 + (c.toNat - 65536) % 1024)

def escList : List Char → List Char
  | [] => []
  | c :: cs => escapeChar c ++ escList cs

/-- A JSON string literal: quote, escaped body, quote. -/
def quoteChars (s : String) : List Char := '"' :: (escList s.data ++ ['"'])

/-- A manifest entry: `{fingerprint, size}` as the Python dict
`{"hash": ..., "size": ...}` carries it. -/
structure Entry where
  hash : String
  size : Int
deriving DecidableEq

/-- A manifest: relative-path keys in insertion order with their entries
(the shallow embedding of the Python dict built by `build_manifest`). -/
abbrev Manifest := List (String × Entry)

/-- `json.dump` text of one entry at nesting depth 1 (inner indent 4). -/
def entryChars (e : Entry) : List Char :=
  lbraceChar :: '\n' :: ' ' :: ' ' :: ' ' :: ' ' :: quoteChars "hash" ++
  ':' :: ' ' :: quoteChars e.hash ++
  ',' :: '\n' :: ' ' :: ' ' :: ' ' :: ' ' :: quoteChars "size" ++
  ':' :: ' ' :: intChars e.size ++
  '\n' :: ' ' :: ' ' :: [rbraceChar]

/-- One top-level member: two-space indent, quoted key, `": "`, entry. -/
def memberChars (k : String) (e : Entry) : List Char :=
  ' ' :: ' ' :: quoteChars k ++ ':' :: ' ' :: entryChars e

/-- Top-level members joined by `",\n"`. -/
def membersChars : Manifest → List Char
  | [] => []
  | [(k, e)] => memberChars k e
  | (k, e) :: rest => memberChars k e ++ ',' :: '\n' :: membersChars rest

/-- `save_manifest(manifest, manifest_file)`: the exact text
`json.dump(manifest, f, indent=2)` writes to the destination file. -/
def save_manifest (m : Manifest) : String :=
  match m with
  | [] => ⟨[lbraceChar, rbraceChar]⟩
  | _ :: _ => ⟨lbraceChar :: '\n' :: (membersChars m ++ '\n' :: [rbraceChar])⟩

/-- The JSON value a manifest denotes. -/
def entryJson (e : Entry) : Json :=
  .obj (.cons "hash" (.str e.hash) (.cons "size" (.num e.size) .nil))

def manifestJsonObj : Manifest → JsonObj
  | [] => .nil
  | (k, e) :: rest => .cons k (entryJson e) (manifestJsonObj rest)

def manifestToJson (m : Manifest) : Json := .obj (manifestJsonObj m)

/-! ### Parsing (`json.load`)

A recursive-descent parser for the JSON grammar, following CPython's
`json.loads` in strict mode: the four JSON whitespace characters, short and
`\uXXXX` escapes with surrogate-pair combination, no raw control characters
inside strings, no leading zeros, trailing input rejected.  Lone surrogates
(which CPython would keep as unpaired code units) are rejected since a Lean
`Char` cannot carry them; no claim touches such input.  Recursion is fueled;
`load_manifest` supplies fuel that covers every parsable input. -/

def isWsChar (c : Char) : Bool := c = ' ' || c = '\t' || c = '\n' || c = '\r'

def skipWs : List Char → List Char
  | [] => []
  | c :: cs => if isWsChar c then skipWs cs else c :: cs

def hexDigitVal (c : Char) : Option Nat :=
  if '0' ≤ c ∧ c ≤ '9' then some (c.toNat - 48)
  else if 'a' ≤ c ∧ c ≤ 'f' then some (c.toNat - 87)
  else if 'A' ≤ c ∧ c ≤ 'F' then some (c.toNat - 55)
  else none

def hex4Val (h1 h2 h3 h4 : Char) : Option Nat :=
  match hexDigitVal h1, hexDigitVal h2, hexDigitVal h3, hexDigitVal h4 with
  | some a, some b, some c, some d => some (((a * 16 + b) * 16 + c) * 16 + d)
  | _, _, _, _ => none

def unescapeShort (c : Char) : Option Char :=
  if c = '"' then some '"'
  else if c = '\\' then some '\\'
  else if c = '/' then some '/'
  else if c = 'b' then some (Char.ofNat 8)
  else if c = 'f' then some (Char.ofNat 12)
  else if c = 'n' then some '\n'
  else if c = 'r' then some (Char.ofNat 13)
  else if c = 't' then some '\t'
  else none

/-- After a `\uXXXX` with `hi` in the high-surrogate range, decode the
mandatory low-surrogate `\uXXXX` that follows and combine the pair. -/
def readLowSurrogate (hi : Nat) : List Char → Except Unit (Char × List Char)
  | e2 :: u2 :: g1 :: g2 :: g3 :: g4 :: rest =>
    if e2 = '\\' ∧ u2 = 'u' then
      match hex4Val g1 g2 g3 g4 with
      | some m =>
          if 56320 ≤ m ∧ m ≤ 57343 then
            .ok (Char.ofNat (65536 + (hi - 55296) * 1024 + (m - 56320)), rest)
          else .error ()
      | none => .error ()
    else .error ()
  | _ => .error ()

/-- Decode a `\uXXXX` escape body (the four hex digits and, for a high
surrogate, the paired low surrogate). -/
def readUnicode : List Char → Except Unit (Char × List Char)
  | h1 :: h2 :: h3 :: h4 :: rest =>
    match hex4Val h1 h2 h3 h4 with
    | none => .error ()
    | some n =>
      if n < 55296 ∨ 57343 < n then .ok (Char.ofNat n, rest)
      else if n ≤ 56319 then readLowSurrogate n rest
      else .error ()
  | _ => .error ()

/-- Decode one escape sequence (the part after the backslash). -/
def readEscape : List Char → Except Unit (Char × List Char)
  | [] => .error ()
  | e :: rest =>
    if e = 'u' then readUnicode rest
    else
      match unescapeShort e with
      | some c2 => .ok (c2, rest)
      | none => .error ()

/-- Parse a JSON string body (after the opening quote) up to and including
the closing quote, returning the decoded characters and the remainder.
Each step consumes at least one input character, so `fuel ≥ length` always
suffices and the callers pass the input length. -/
def parseStringBody : Nat → List Char → Except Unit (List Char × List Char)
  | 0, _ => .error ()
  | _, [] => .error ()
  | fuel + 1, c :: rest =>
    if c = '"' then .ok ([], rest)
    else if c = '\\' then
      match readEscape rest with
      | .ok (c2, rest2) => (parseStringBody fuel rest2).map (fun p => (c2 :: p.1, p.2))
      | .error _ => .error ()
    else if c.toNat < 32 then .error ()
    else (parseStringBody fuel rest).map (fun p => (c :: p.1, p.2))

/-- String parsing entry: fuel is the input length. -/
def parseStringTop (cs : List Char) : Except Unit (List Char × List Char) :=
  parseStringBody cs.length cs

/-- Greedy run of decimal digits, with accumulator. -/
def parseDigitsAcc : Nat → List Char → Nat × List Char
  | acc, [] => (acc, [])
  | acc, c :: rest =>
      if c.isDigit then parseDigitsAcc (acc * 10 + (c.toNat - 48)) rest
      else (acc, c :: rest)

/-- Parse an unsigned JSON number (no leading zeros: `0` or a nonzero-led
digit run, as CPython's number grammar has it). -/
def parseNumAbs : List Char → Except Unit (Nat × List Char)
  | [] => .error ()
  | c :: rest =>
    if c = '0' then .ok (0, rest)
    else if c.isDigit then .ok (parseDigitsAcc (c.toNat - 48) rest)
    else .error ()

/-- Which nonterminal `parseStep` is working on: a value, the members of an
object (positioned at a key), or the elements of an array (positioned at a
value); the latter two return the `.obj` / `.arr` built from the remaining
members / elements. -/
inductive PKind where
  | value : PKind
  | members : PKind
  | elements : PKind

/-- One fueled recursive-descent parser for all three nonterminals. -/
def parseStep : Nat → PKind → List Char → Except Unit (Json × List Char)
  | 0, _, _ => .error ()
  | fuel + 1, .value, cs =>
    match skipWs cs with
    | [] => .error ()
    | c :: rest =>
      if c = lbraceChar then
        match skipWs rest with
        | c2 :: rest2 =>
          if c2 = rbraceChar then .ok (.obj .nil, rest2)
          else parseStep fuel .members (c2 :: rest2)
        | [] => .error ()
      else if c = '[' then
        match skipWs rest with
        | c2 :: rest2 =>
          if c2 = ']' then .ok (.arr .nil, rest2)
          else parseStep fuel .elements (c2 :: rest2)
        | [] => .error ()
      else if c = '"' then
        (parseStringTop rest).map (fun p => (.str ⟨p.1⟩, p.2))
      else if c = '-' then
        (parseNumAbs rest).map (fun p => (.num (-(p.1 : Int)), p.2))
      else if c.isDigit then
        (parseNumAbs (c :: rest)).map (fun p => (.num (p.1 : Int), p.2))
      else if c = 't' then
        (match rest with
         | 'r' :: 'u' :: 'e' :: rest2 => .ok (.bool true, rest2)
         | _ => .error ())
      else if c = 'f' then
        (match rest with
         | 'a' :: 'l' :: 's' :: 'e' :: rest2 => .ok (.bool false, rest2)
         | _ => .error ())
      else if c = 'n' then
        (match rest with
         | 'u' :: 'l' :: 'l' :: rest2 => .ok (.null, rest2)
         | _ => .error ())
      else .error ()
  | fuel + 1, .members, cs =>
    match skipWs cs with
    | [] => .error ()
    | c :: rest =>
      if c = '"' then
        match parseStringTop rest with
        | .error _ => .error ()
        | .ok (kcs, rest2) =>
          match skipWs rest2 with
          | [] => .error ()
          | c2 :: rest3 =>
            if c2 = ':' then
              match parseStep fuel .value rest3 with
              | .error _ => .error ()
              | .ok (v, rest4) =>
                match skipWs rest4 with
                | [] => .error ()
                | c3 :: rest5 =>
                  if c3 = ',' then
                    match parseStep fuel .members rest5 with
                    | .ok (.obj kvs, rest6) => .ok (.obj (.cons ⟨kcs⟩ v kvs), rest6)
                    | _ => .error ()
                  else if c3 = rbraceChar then .ok (.obj (.cons ⟨kcs⟩ v .nil), rest5)
                  else .error ()
            else .error ()
      else .error ()
  | fuel + 1, .elements, cs =>
    match parseStep fuel .value cs with
    | .error _ => .error ()
    | .ok (v, rest) =>
      match skipWs rest with
      | [] => .error ()
      | c :: rest2 =>
        if c = ',' then
          match parseStep fuel .elements rest2 with
          | .ok (.arr xs, rest3) => .ok (.arr (.cons v xs), rest3)
          | _ => .error ()
        else if c = ']' then .ok (.arr (.cons v .nil), rest2)
        else .error ()

/-- `json.load(f)`: parse the whole file text as one JSON value (any
syntactically valid JSON of any shape), rejecting trailing input.  The fuel
`2·length + 2` covers every parse: each level of `value` recursion first
consumes a character, and `elements` adds at most one extra level per
consumed character. -/
def jsonLoads (s : String) : Except Unit Json :=
  match parseStep (2 * s.data.length + 2) .value s.data with
  | .error _ => .error ()
  | .ok (v, rest) => if skipWs rest = [] then .ok v else .error ()

/-- `load_manifest(manifest_file)`: `json.load` of the file's text, returned
without any shape validation. -/
def load_manifest (s : String) : Except Unit Json := jsonLoads s

instance {ε α : Type} [DecidableEq ε] [DecidableEq α] : DecidableEq (Except ε α)
  | .ok a, .ok b =>
      if h : a = b then .isTrue (by rw [h]) else .isFalse (fun hc => h (Except.ok.inj hc))
  | .ok _, .error _ => .isFalse (fun hc => Except.noConfusion hc)
  | .error _, .ok _ => .isFalse (fun hc => Except.noConfusion hc)
  | .error a, .error b =>
      if h : a = b then .isTrue (by rw [h]) else .isFalse (fun hc => h (Except.error.inj hc))

/-! ## Filesystem model and the tree walk

A directory tree for files (content as bytes) and directories; a directory
carries a readability flag because `os.scandir` can fail on it with
`PermissionError`.  `os.walk` is called with its default `onerror=None`, so
a failed `scandir` — nonexistent root, a file as root, or an unreadable
directory — is silently ignored: that node contributes nothing to the walk
and nothing is raised or recorded.  Paths are component lists; manifest
keys are the components of the path relative to the walked root joined by
`"/"` (POSIX `str(PurePath)`).
-/

mutual
inductive FsTree where
  | file (content : List Nat) : FsTree
  | dir (readable : Bool) (entries : FsEntries) : FsTree
deriving DecidableEq
inductive FsEntries where
  | nil : FsEntries
  | cons (name : String) (t : FsTree) (rest : FsEntries) : FsEntries
deriving DecidableEq
end

def FsEntries.find : FsEntries → String → Option FsTree
  | .nil, _ => none
  | .cons n t rest, name => if n = name then some t else FsEntries.find rest name

/-- Follow a component path down the tree. -/
def resolvePath : FsTree → List String → Option FsTree
  | t, [] => some t
  | .file _, _ :: _ => none
  | .dir _ es, n :: rest =>
      match es.find n with
      | some t => resolvePath t rest
      | none => none

/-- The regular-file contents at a path, when the path names a file. -/
def readFileQ (fs : FsTree) (p : List String) : Option (List Nat) :=
  match resolvePath fs p with
  | some (.file content) => some content
  | _ => none

/-- File contents with the empty default (used only where the source code
has already established that the file exists). -/
def readBytesD (fs : FsTree) (p : List String) : List Nat := (readFileQ fs p).getD []

/-- The files directly inside a directory (`filenames` of one `os.walk`
triple), as full paths. -/
def filesOfEntries : List String → FsEntries → List (List String)
  | _, .nil => []
  | pre, .cons n (.file _) rest => (pre ++ [n]) :: filesOfEntries pre rest
  | pre, .cons _ (.dir _ _) rest => filesOfEntries pre rest

mutual
/-- Top-down `os.walk` of a resolved node: files of this directory first,
then each subdirectory recursively; a file node or an unreadable directory
(failed `scandir`, ignored by `onerror=None`) yields nothing. -/
def walkTree : List String → FsTree → List (List String)
  | _, .file _ => []
  | _, .dir false _ => []
  | pre, .dir true es => filesOfEntries pre es ++ walkSubdirs pre es
def walkSubdirs : List String → FsEntries → List (List String)
  | _, .nil => []
  | pre, .cons n t rest => walkTree (pre ++ [n]) t ++ walkSubdirs pre rest
end

/-- `os.walk(directory)` flattened to the file list `build_manifest`
collects: every regular file under the root, in traversal order.  A root
that does not resolve (or is unreadable) yields the empty list — the
`scandir` failure is silently swallowed. -/
def osWalk (fs : FsTree) (root : List String) : List (List String) :=
  match resolvePath fs root with
  | some t => walkTree root t
  | none => []

/-! ### Relative paths as strings -/

/-- `str(PurePath(...))` of a component list: components joined by `/`. -/
def joinChars : List String → List Char
  | [] => []
  | [n] => n.data
  | n :: rest => n.data ++ '/' :: joinChars rest

def joinPath (l : List String) : String := ⟨joinChars l⟩

/-- `PurePath` division parses a relative-path string back into components:
split on `/`. -/
def splitGo : List Char → List Char → List String
  | acc, [] => [⟨acc.reverse⟩]
  | acc, c :: rest =>
      if c = '/' then ⟨acc.reverse⟩ :: splitGo [] rest else splitGo (c :: acc) rest

def splitPath (s : String) : List String := splitGo [] s.data

/-- A well-formed file name: nonempty and without the path separator. -/
def validNameB (s : String) : Bool := !(s.data.isEmpty) && !(s.data.contains '/')

def FsEntries.names : FsEntries → List String
  | .nil => []
  | .cons n _ rest => n :: FsEntries.names rest

mutual
/-- Well-formedness a real directory tree always has: entry names are
nonempty, contain no separator, and are unique within each directory. -/
def fsOk : FsTree → Bool
  | .file _ => true
  | .dir _ es => entriesOk es
def entriesOk : FsEntries → Bool
  | .nil => true
  | .cons n t rest =>
      validNameB n && !((FsEntries.names rest).contains n) && fsOk t && entriesOk rest
end

/-! ## The manifest builder -/

/-- `auto_threads`: thread count from the CPU count (`os.cpu_count() or 4`),
scaled and clamped. -/
def auto_threads (cores : Option Nat) (multiplier : Nat := 4) (minimum : Nat := 4)
    (maximum : Nat := 64) : Nat :=
  max minimum (min ((cores.getD 4) * multiplier) maximum)

/-- `hash_file(path, block_size=65536)`: SHA-256 hex digest of the file's
bytes, reading in `block_size`-byte chunks and feeding each chunk to the
hasher (an `update` concatenates, so the digest is of the accumulated
stream). The file's bytes are the argument; opening the path is the
caller's part of the model. -/
def hash_file (content : List Nat) (blockSize : Nat := 65536) : String :=
  sha256hex ((chunksOf blockSize content).foldl (· ++ ·) [])

/-- `_hash_file_task(directory, full_path)`: the per-file worker.  It reads
the file once for the hash (`hash_file`) and then queries the size with a
separate `os.path.getsize` call, so the two observations are modelled
against two filesystem snapshots: `fsAtRead` when the bytes are read,
`fsAtStat` when the size is stat'ed.  In an unchanging run both are the
same tree. -/
def _hash_file_task (fsAtRead fsAtStat : FsTree) (directory full : List String) :
    String × Entry :=
  (joinPath (full.drop directory.length),
   { hash := hash_file (readBytesD fsAtRead full),
     size := ((readBytesD fsAtStat full).length : Int) })

/-- `build_manifest(directory, threads)` with the worker pool's completion
order made explicit: `sched` is the order `as_completed` yields the
per-file futures (a permutation of the collected file list), and `threads`
is the pool size, which influences only latency and that order — the dict
insertions it determines are keyed identically either way.  The result is
the manifest dict in insertion order. -/
def build_manifest_sched (fs : FsTree) (directory : List String) (threads : Nat)
    (sched : List (List String)) : Manifest :=
  sched.map (_hash_file_task fs fs directory)

/-- `build_manifest(directory)` under the canonical (sequential) completion
order: the walk order itself. -/
def build_manifest (fs : FsTree) (directory : List String) : Manifest :=
  build_manifest_sched fs directory (auto_threads none) (osWalk fs directory)

/-- The result-collection loop `for fut in as_completed(futures): fut.result()`
shared by `build_manifest` and `copy_files`: `fut.result()` re-raises the
first failed task's exception, abandoning the loop there (workers already
dispatched still run, but their outcomes are discarded); only when no task
failed does the batch produce the full result list. -/
def collectResults {α : Type} : List (Except String α) → Except String (List α)
  | [] => .ok []
  | .error e :: _ => .error e
  | .ok a :: rest => (collectResults rest).map (a :: ·)

/-- The failures a batch of task outcomes contains, in order. -/
def failuresOf {α : Type} (rs : List (Except String α)) : List String :=
  rs.filterMap (fun r => match r with | .error e => some e | .ok _ => none)

/-- Modelled from the spec: the `ConcurrencyAggregateError` policy of §7 —
the step fails only after the whole batch completes, with one aggregate
error carrying the list of every per-item failure.  No such aggregation
exists in the source; this is the spec's claimed behavior, stated for
comparison. -/
def specAggregateCollect {α : Type} (rs : List (Except String α)) :
    Except (List String) (List α) :=
  if failuresOf rs = [] then
    .ok (rs.filterMap (fun r => match r with | .ok a => some a | .error _ => none))
  else .error (failuresOf rs)

/-! ## The differ -/

/-- Python dict subscripting chain `man[f]["hash"]` on a parsed-JSON
manifest entry: `none` models the `KeyError` (key absent) or `TypeError`
(entry not a dict) the chain would raise. -/
def hashField (o : JsonObj) (f : String) : Option Json :=
  match o.getLast f with
  | some (.obj e) => e.getLast "hash"
  | _ => none

/-- `diff_manifests(man1, man2)` over two parsed-JSON manifests: `added` and
`removed` are the key-set differences; `changed` collects the common keys
whose `"hash"` fields differ.  The loop raises (`KeyError`/`TypeError`) as
soon as a common key's entry lacks a `"hash"` field on either side; the
result sets model the returned lists, whose iteration order is Python set
order and carries no meaning.  A non-dict argument fails at `.keys()`
(`AttributeError`). -/
def diff_manifests (man1 man2 : Json) :
    Except Unit (Finset String × Finset String × Finset String) :=
  match man1, man2 with
  | .obj o1, .obj o2 =>
    let files1 : Finset String := o1.keyList.toFinset
    let files2 : Finset String := o2.keyList.toFinset
    if ∀ f ∈ files1 ∩ files2, (hashField o1 f).isSome ∧ (hashField o2 f).isSome then
      .ok (files2 \ files1, files1 \ files2,
           (files1 ∩ files2).filter (fun f => hashField o1 f ≠ hashField o2 f))
    else .error ()
  | _, _ => .error ()

/-! ## The replicator and the pipeline -/

/-- The output directory's contents: relative-path key to file bytes. -/
abbrev OutDir := List (String × List Nat)

/-- Write (create or overwrite) one file in the output directory. -/
def setFile : OutDir → String → List Nat → OutDir
  | [], key, bytes => [(key, bytes)]
  | (k, b) :: rest, key, bytes =>
      if k = key then (key, bytes) :: rest else (k, b) :: setFile rest key bytes

def lookupFile : OutDir → String → Option (List Nat)
  | [], _ => none
  | (k, b) :: rest, key => if k = key then some b else lookupFile rest key

/-- `_copy_file_task(src, dest)`: `mkdir(parents=True)` then
`shutil.copy2` — the destination receives exactly the source file's bytes;
a missing source raises. -/
def _copy_file_task (fs : FsTree) (srcRoot : List String) (rel : String)
    (out : OutDir) : Except Unit OutDir :=
  match readFileQ fs (srcRoot ++ splitPath rel) with
  | some bytes => .ok (setFile out rel bytes)
  | none => .error ()

/-- `copy_files(file_list, source_dir, output_dir)`: copy every listed
relative path from the source root into the output directory. -/
def copy_files (fileList : List String) (fs : FsTree) (srcRoot : List String)
    (out : OutDir) : Except Unit OutDir :=
  fileList.foldlM (fun o rel => _copy_file_task fs srcRoot rel o) out

/-- `extract_differential(src_dir, old_manifest_file, output_dir=...)`:
load the old manifest text, build the current manifest over the source
tree, diff, and copy `added + changed` into the output directory.  Returns
the three diff sets and the resulting output directory. -/
def extract_differential (fs : FsTree) (srcDir : List String) (oldText : String)
    (out : OutDir) :
    Except Unit ((Finset String × Finset String × Finset String) × OutDir) := do
  let oldJ ← load_manifest oldText
  let newMan := build_manifest fs srcDir
  let (added, removed, changed) ← diff_manifests oldJ (manifestToJson newMan)
  let toCopy := added.sort (· ≤ ·) ++ changed.sort (· ≤ ·)
  let outFinal ← copy_files toCopy fs srcDir out
  return ((added, removed, changed), outFinal)

/-! ## Auxiliary observation functions used by the statements -/

/-- Python dict lookup on a manifest built by keyed insertion: the entry of
the last insertion with that key (for distinct keys, the unique one). -/
def lookupLastEntry : Manifest → String → Option Entry
  | [], _ => none
  | (k, e) :: tl, key =>
      match lookupLastEntry tl key with
      | some r => some r
      | none => if k = key then some e else none

/-- The key list of a manifest, in insertion order. -/
def manifestKeys (m : Manifest) : List String := m.map Prod.fst

/-- The entries of a directory as a plain association list. -/
def FsEntries.toListE : FsEntries → List (String × FsTree)
  | .nil => []
  | .cons n t rest => (n, t) :: FsEntries.toListE rest

/-- The names of the regular-file entries of a directory, in order. -/
def fileNamesE : FsEntries → List String
  | .nil => []
  | .cons n (.file _) rest => n :: fileNamesE rest
  | .cons _ (.dir _ _) rest => fileNamesE rest

/-! ### Specimen trees used by concrete instances -/

/-- A directory holding `a.txt` = "hello" and `b.txt` = "world". -/
def twoFileDir : FsTree :=
  .dir true (.cons "a.txt" (.file [104, 101, 108, 108, 111])
    (.cons "b.txt" (.file [119, 111, 114, 108, 100]) .nil))

/-- A root whose subdirectory `d` is the two-file directory. -/
def scenarioFs : FsTree := .dir true (.cons "d" twoFileDir .nil)

/-- A one-file tree whose `f` holds the single byte 97. -/
def snapshotA : FsTree := .dir true (.cons "f" (.file [97]) .nil)

/-- The same tree after `f` was rewritten to the two bytes 98, 98. -/
def snapshotB : FsTree := .dir true (.cons "f" (.file [98, 98]) .nil)

/-! ## Lemmas: chunked hashing -/

theorem chunksGo_foldl_append {α : Type} (fuel n : Nat) (hn : 0 < n) :
    ∀ (l acc : List α), (chunksGo fuel n l).foldl (· ++ ·) acc = acc ++ l := by
  induction fuel with
  | zero =>
      intro l acc
      cases l with
      | nil => simp [chunksGo]
      | cons x xs => simp [chunksGo, Nat.pos_iff_ne_zero.mp hn]
  | succ fuel ih =>
      intro l acc
      cases l with
      | nil => simp [chunksGo]
      | cons x xs =>
          rw [chunksGo]
          simp only [Nat.pos_iff_ne_zero.mp hn, if_false]
          rw [List.foldl_cons, ih, List.append_assoc, List.take_append_drop]

theorem chunksOf_foldl {α : Type} (n : Nat) (hn : 0 < n) (l : List α) :
    (chunksOf n l).foldl (· ++ ·) [] = l := by
  rw [chunksOf, chunksGo_foldl_append _ _ hn, List.nil_append]

/-- Reading a file in bounded chunks and feeding each chunk to the hasher
digests exactly the file's full contents. -/
theorem hash_file_eq_sha256 (content : List Nat) (blockSize : Nat) (h : 0 < blockSize) :
    hash_file content blockSize = sha256hex content := by
  rw [hash_file, chunksOf_foldl _ h]

/-! ## Lemmas: the result-collection loop -/

theorem collectResults_first_error {α : Type} :
    ∀ (rs : List (Except String α)) (e : String) (rest : List String),
      failuresOf rs = e :: rest → collectResults rs = .error e := by
  intro rs
  induction rs with
  | nil => intro e rest h; simp [failuresOf] at h
  | cons r tl ih =>
      intro e rest h
      cases r with
      | error e1 =>
          simp [failuresOf] at h
          simp [collectResults, h.1]
      | ok a =>
          simp [failuresOf] at h
          rw [collectResults, ih e rest (by simpa [failuresOf] using h)]
          rfl

theorem collectResults_no_failure {α : Type} :
    ∀ rs : List (Except String α), failuresOf rs = [] →
      collectResults rs =
        .ok (rs.filterMap (fun r => match r with | .ok a => some a | .error _ => none)) := by
  intro rs
  induction rs with
  | nil => intro _; rfl
  | cons r tl ih =>
      intro h
      cases r with
      | error e1 => simp [failuresOf] at h
      | ok a =>
          simp [failuresOf] at h
          rw [collectResults, ih (by simpa [failuresOf] using h)]
          rfl

/-! ## Lemmas: characters and digits -/

theorem char_toNat_inj {a b : Char} (h : a.toNat = b.toNat) : a = b :=
  Char.ext (UInt32.toNat.inj h)

theorem toNat_ofNat_valid {n : Nat} (h : n.isValidChar) : (Char.ofNat n).toNat = n := by
  rw [Char.ofNat, dif_pos h]
  rfl

theorem digitChar_toNat {d : Nat} (h : d < 10) : (digitChar d).toNat = 48 + d := by
  rw [digitChar]
  exact toNat_ofNat_valid (Or.inl (by omega))

theorem digitChar_isDigit {d : Nat} (h : d < 10) : (digitChar d).isDigit = true := by
  interval_cases d <;> decide

theorem digitChar_eq_zero_iff {d : Nat} (h : d < 10) : digitChar d = '0' ↔ d = 0 := by
  interval_cases d <;> simp <;> decide

theorem hexDigitVal_hexDigitChar {d : Nat} (h : d < 16) :
    hexDigitVal (hexDigitChar d) = some d := by
  interval_cases d <;> decide

theorem hex4Val_hex4Chars {n : Nat} (h : n < 65536) :
    hex4Val (hexDigitChar (n / 4096 % 16)) (hexDigitChar (n / 256 % 16))
      (hexDigitChar (n / 16 % 16)) (hexDigitChar (n % 16)) = some n := by
  rw [hex4Val, hexDigitVal_hexDigitChar (by omega), hexDigitVal_hexDigitChar (by omega),
    hexDigitVal_hexDigitChar (by omega), hexDigitVal_hexDigitChar (by omega)]
  exact congrArg some (by omega)

/-! ## Lemmas: string escaping round-trips -/

/-- Decoding inverts escaping: the escape of any scalar value, followed by
anything, decodes back to that character. -/
theorem readEscape_escape_of_escaped (c : Char) (tail : List Char)
    (hesc : ∃ body, escapeChar c = '\\' :: body) :
    readEscape ((escapeChar c).tail ++ tail) = .ok (c, tail) := by
  have hvalid : c.toNat < 55296 ∨ (57343 < c.toNat ∧ c.toNat < 1114112) := c.valid
  obtain ⟨body, hbody⟩ := hesc
  rw [escapeChar] at hbody ⊢
  split_ifs with h1 h2 h3 h4 h5 h6 h7 h8 h9
  · subst h1; rfl
  · subst h2; rfl
  · have : c = Char.ofNat 8 := char_toNat_inj (by rw [toNat_ofNat_valid (Or.inl (by omega))]; omega)
    subst this; rfl
  · have : c = Char.ofNat 12 := char_toNat_inj (by rw [toNat_ofNat_valid (Or.inl (by omega))]; omega)
    subst this; rfl
  · have : c = '\n' := char_toNat_inj (by rw [show ('\n').toNat = 10 from rfl]; omega)
    subst this; rfl
  · have : c = Char.ofNat 13 := char_toNat_inj (by rw [toNat_ofNat_valid (Or.inl (by omega))]; omega)
    subst this; rfl
  · have : c = '\t' := char_toNat_inj (by rw [show ('\t').toNat = 9 from rfl]; omega)
    subst this; rfl
  · -- verbatim characters do not start with a backslash
    exfalso
    rw [if_neg h1, if_neg h2, if_neg h3, if_neg h4, if_neg h5, if_neg h6, if_neg h7,
      if_pos h8] at hbody
    simp only [List.cons.injEq] at hbody
    exact h2 hbody.1
  · -- a single \uXXXX: basic-plane, not a surrogate since c is a scalar value
    rw [hex4Chars]
    simp only [List.tail_cons, List.cons_append, List.nil_append]
    rw [readEscape]
    simp only [reduceIte]
    rw [readUnicode, hex4Val_hex4Chars (by omega)]
    have hrange : c.toNat < 55296 ∨ 57343 < c.toNat := by omega
    simp only [if_pos hrange, Char.ofNat_toNat]
  · -- astral char: surrogate pair \uHHHH\uLLLL
    have hlt : c.toNat < 1114112 := by omega
    have hge : 65536 ≤ c.toNat := by omega
    rw [hex4Chars, hex4Chars]
    simp only [List.tail_cons, List.cons_append, List.nil_append]
    rw [readEscape]
    simp only [reduceIte]
    rw [readUnicode, hex4Val_hex4Chars (by omega)]
    have hhi : ¬(55296 + (c.toNat - 65536) / 1024 < 55296 ∨
        57343 < 55296 + (c.toNat - 65536) / 1024) := by omega
    have hle : 55296 + (c.toNat - 65536) / 1024 ≤ 56319 := by omega
    simp only [if_neg hhi, if_pos hle]
    rw [readLowSurrogate]
    simp only [reduceIte]
    rw [hex4Val_hex4Chars (by omega)]
    have hlo : 56320 ≤ 56320 + (c.toNat - 65536) % 1024 ∧
        56320 + (c.toNat - 65536) % 1024 ≤ 57343 := by omega
    simp only [if_pos hlo]
    have hcomb : 65536 + (55296 + (c.toNat - 65536) / 1024 - 55296) * 1024 +
        (56320 + (c.toNat - 65536) % 1024 - 56320) = c.toNat := by omega
    rw [hcomb, Char.ofNat_toNat]
    simp

theorem parseStringBody_escape (c : Char) (tail : List Char) (fuel : Nat) :
    parseStringBody (fuel + 1) (escapeChar c ++ tail) =
      (parseStringBody fuel tail).map (fun p => (c :: p.1, p.2)) := by
  by_cases hv : 32 ≤ c.toNat ∧ c.toNat ≤ 126 ∧ ¬ c = '"' ∧ ¬ c = '\\'
  · -- verbatim character
    obtain ⟨hlo, hhi, hq, hb⟩ := hv
    have hev : escapeChar c = [c] := by
      rw [escapeChar]
      rw [if_neg hq, if_neg hb, if_neg (by omega), if_neg (by omega), if_neg (by omega),
        if_neg (by omega), if_neg (by omega), if_pos ⟨hlo, hhi⟩]
    rw [hev, List.singleton_append, parseStringBody, if_neg hq, if_neg hb, if_neg (by omega)]
  · -- escaped character: the escape starts with a backslash
    have hesc : ∃ body, escapeChar c = '\\' :: body := by
      rw [escapeChar]
      split_ifs <;> first
        | exact ⟨_, rfl⟩
        | (exfalso; apply hv; refine ⟨by omega, by omega, ?_, ?_⟩ <;>
            (intro hc; subst hc; simp_all))
    obtain ⟨body, hbody⟩ := hesc
    have htailEq : (escapeChar c).tail ++ tail = body ++ tail := by rw [hbody]; rfl
    have hre := readEscape_escape_of_escaped c tail ⟨body, hbody⟩
    rw [htailEq] at hre
    rw [hbody, List.cons_append, parseStringBody, if_neg (by decide), if_pos rfl, hre]

theorem parseStringBody_escList (cs : List Char) :
    ∀ (fuel : Nat) (tail : List Char),
      parseStringBody (cs.length + fuel + 1) (escList cs ++ '"' :: tail) = .ok (cs, tail) := by
  induction cs with
  | nil =>
      intro fuel tail
      rw [escList, List.nil_append, List.length_nil, Nat.zero_add, parseStringBody, if_pos rfl]
  | cons c cs ih =>
      intro fuel tail
      rw [escList, List.append_assoc, List.length_cons]
      have : cs.length + 1 + fuel + 1 = (cs.length + fuel + 1) + 1 := by omega
      rw [this, parseStringBody_escape, ih]
      rfl

theorem escList_length_ge (cs : List Char) : cs.length ≤ (escList cs).length := by
  induction cs with
  | nil => simp [escList]
  | cons c cs ih =>
      rw [escList, List.length_append, List.length_cons]
      have : 1 ≤ (escapeChar c).length := by
        rw [escapeChar]
        split_ifs <;> simp
      omega

/-- The fuel `parseStringTop` supplies always covers a full escaped body. -/
theorem parseStringTop_escList (cs : List Char) (tail : List Char) :
    parseStringTop (escList cs ++ '"' :: tail) = .ok (cs, tail) := by
  have hlen : cs.length ≤ (escList cs).length := escList_length_ge cs
  rw [parseStringTop]
  have : (escList cs ++ '"' :: tail).length =
      cs.length + (((escList cs).length - cs.length) + tail.length) + 1 := by
    rw [List.length_append, List.length_cons]
    omega
  rw [this, parseStringBody_escList]

/-! ## Lemmas: decimal numerals round-trip -/

theorem natCharsGo_acc (fuel : Nat) : ∀ (n : Nat) (acc : List Char),
    natCharsGo fuel n acc = natCharsGo fuel n [] ++ acc := by
  induction fuel with
  | zero => intro n acc; rfl
  | succ fuel ih =>
      intro n acc
      rw [natCharsGo, natCharsGo]
      by_cases h : n < 10
      · rw [if_pos h, if_pos h]; rfl
      · rw [if_neg h, if_neg h, ih (n / 10) (digitChar (n % 10) :: acc),
          ih (n / 10) [digitChar (n % 10)], List.append_assoc]
        rfl

theorem natCharsGo_fuel (f1 : Nat) : ∀ (f2 n : Nat) (acc : List Char), n ≤ f1 → n ≤ f2 →
    natCharsGo f1 n acc = natCharsGo f2 n acc := by
  induction f1 with
  | zero =>
      intro f2 n acc h1 h2
      have : n = 0 := by omega
      subst this
      cases f2 with
      | zero => rfl
      | succ f2 => rw [natCharsGo, natCharsGo, if_pos (by omega)]
  | succ f1 ih =>
      intro f2 n acc h1 h2
      cases f2 with
      | zero =>
          have : n = 0 := by omega
          subst this
          rw [natCharsGo, natCharsGo, if_pos (by omega)]
      | succ f2 =>
          rw [natCharsGo, natCharsGo]
          by_cases h : n < 10
          · rw [if_pos h, if_pos h]
          · rw [if_neg h, if_neg h]
            exact ih f2 (n / 10) _ (by omega) (by omega)

theorem natChars_lt10 {n : Nat} (h : n < 10) : natChars n = [digitChar n] := by
  cases n with
  | zero => rfl
  | succ m => rw [natChars, natCharsGo, if_pos h]

theorem natChars_ge10 {n : Nat} (h : 10 ≤ n) :
    natChars n = natChars (n / 10) ++ [digitChar (n % 10)] := by
  obtain ⟨f, rfl⟩ : ∃ f, n = f + 1 := ⟨n - 1, by omega⟩
  rw [natChars, natCharsGo, if_neg (by omega), natCharsGo_acc,
    natCharsGo_fuel f ((f + 1) / 10) ((f + 1) / 10) [] (by omega) (by omega)]
  rfl

theorem natChars_ne_nil (n : Nat) : natChars n ≠ [] := by
  by_cases h : n < 10
  · rw [natChars_lt10 h]; simp
  · rw [natChars_ge10 (by omega)]; simp

theorem natChars_digits (n : Nat) : ∀ c ∈ natChars n, ∃ d, d < 10 ∧ c = digitChar d := by
  induction n using Nat.strong_induction_on with
  | _ n ih =>
      by_cases h : n < 10
      · rw [natChars_lt10 h]
        intro c hc
        simp at hc
        exact ⟨n, h, hc⟩
      · rw [natChars_ge10 (by omega)]
        intro c hc
        rcases List.mem_append.mp hc with h1 | h2
        · exact ih (n / 10) (by omega) c h1
        · simp at h2
          exact ⟨n % 10, by omega, h2⟩

theorem natChars_foldl (n : Nat) : ∀ acc : Nat,
    (natChars n).foldl (fun a c => a * 10 + (c.toNat - 48)) acc =
      acc * 10 ^ (natChars n).length + n := by
  induction n using Nat.strong_induction_on with
  | _ n ih =>
      by_cases h : n < 10
      · intro acc
        rw [natChars_lt10 h]
        simp [digitChar_toNat h]
      · intro acc
        rw [natChars_ge10 (by omega), List.foldl_append, ih (n / 10) (by omega) acc,
          List.length_append]
        simp only [List.foldl_cons, List.foldl_nil, List.length_cons, List.length_nil]
        rw [digitChar_toNat (by omega)]
        rw [pow_succ]
        have : 48 + n % 10 - 48 = n % 10 := by omega
        rw [this]
        ring_nf
        omega

theorem natChars_head_msd (n : Nat) (h : 1 ≤ n) :
    ∃ d t, natChars n = digitChar d :: t ∧ d < 10 ∧ 1 ≤ d := by
  induction n using Nat.strong_induction_on with
  | _ n ih =>
      by_cases h10 : n < 10
      · exact ⟨n, [], natChars_lt10 h10, h10, h⟩
      · obtain ⟨d, t, heq, hd, hd1⟩ := ih (n / 10) (by omega) (by omega)
        refine ⟨d, t ++ [digitChar (n % 10)], ?_, hd, hd1⟩
        rw [natChars_ge10 (by omega), heq, List.cons_append]

theorem parseDigitsAcc_append (ds : List Char) (hds : ∀ c ∈ ds, c.isDigit = true) :
    ∀ (acc : Nat) (rest : List Char), (∀ r, rest.head? = some r → r.isDigit = false) →
      parseDigitsAcc acc (ds ++ rest) =
        (ds.foldl (fun a c => a * 10 + (c.toNat - 48)) acc, rest) := by
  induction ds with
  | nil =>
      intro acc rest hrest
      cases rest with
      | nil => rfl
      | cons r rs =>
          rw [List.nil_append, parseDigitsAcc, if_neg]
          · rfl
          · rw [hrest r rfl]; simp
  | cons d ds ih =>
      intro acc rest hrest
      rw [List.cons_append, parseDigitsAcc, if_pos (hds d (by simp)), List.foldl_cons]
      exact ih (fun c hc => hds c (by simp [hc])) _ rest hrest

theorem parseNumAbs_natChars (n : Nat) (rest : List Char)
    (hrest : ∀ r, rest.head? = some r → r.isDigit = false) :
    parseNumAbs (natChars n ++ rest) = .ok (n, rest) := by
  by_cases h0 : n = 0
  · subst h0
    rw [show natChars 0 = ['0'] from rfl, List.cons_append, List.nil_append,
      parseNumAbs, if_pos rfl]
  · obtain ⟨d, t, heq, hd, hd1⟩ := natChars_head_msd n (by omega)
    have htd : ∀ c ∈ t, c.isDigit = true := by
      intro c hc
      obtain ⟨d2, hd2, rfl⟩ := natChars_digits n c (by rw [heq]; simp [hc])
      exact digitChar_isDigit hd2
    have hfold := natChars_foldl n 0
    rw [heq] at hfold
    simp only [List.foldl_cons, Nat.zero_mul, Nat.zero_add] at hfold
    rw [digitChar_toNat hd] at hfold
    have hstep : 48 + d - 48 = d := by omega
    rw [hstep] at hfold
    rw [heq, List.cons_append, parseNumAbs,
      if_neg (by rw [digitChar_eq_zero_iff hd]; omega), if_pos (digitChar_isDigit hd),
      parseDigitsAcc_append t htd _ rest hrest, digitChar_toNat hd, hstep, hfold]

/-! ## Lemmas: whitespace and parser steps -/

theorem string_mk_data (s : String) : (⟨s.data⟩ : String) = s := rfl

theorem quoteChars_append (s : String) (r : List Char) :
    quoteChars s ++ r = '"' :: (escList s.data ++ '"' :: r) := by
  rw [quoteChars, List.cons_append, List.append_assoc, List.singleton_append]

theorem skipWs_ws {c : Char} (h : isWsChar c = true) (cs : List Char) :
    skipWs (c :: cs) = skipWs cs := by
  rw [skipWs, if_pos h]

theorem skipWs_not {c : Char} (h : isWsChar c = false) (cs : List Char) :
    skipWs (c :: cs) = c :: cs := by
  rw [skipWs, if_neg (by simp [h])]

theorem parseStep_value_congr (fuel : Nat) {cs1 cs2 : List Char}
    (h : skipWs cs1 = skipWs cs2) :
    parseStep (fuel + 1) .value cs1 = parseStep (fuel + 1) .value cs2 := by
  rw [parseStep, parseStep, h]

theorem parseStep_members_congr (fuel : Nat) {cs1 cs2 : List Char}
    (h : skipWs cs1 = skipWs cs2) :
    parseStep (fuel + 1) .members cs1 = parseStep (fuel + 1) .members cs2 := by
  rw [parseStep, parseStep, h]

theorem parseStep_value_str (fuel : Nat) (s : String) (rest : List Char) :
    parseStep (fuel + 1) .value (quoteChars s ++ rest) = .ok (.str s, rest) := by
  rw [quoteChars_append, parseStep, skipWs_not (by decide)]
  simp only [reduceIte]
  rw [parseStringTop_escList]
  simp only [Except.map, string_mk_data]
  rw [if_neg (by decide : ¬('"' : Char) = lbraceChar), if_neg (by decide : ¬('"' : Char) = '[')]

theorem parseStep_value_int (fuel : Nat) (n : Int) (rest : List Char)
    (hrest : ∀ r, rest.head? = some r → r.isDigit = false) :
    parseStep (fuel + 1) .value (intChars n ++ rest) = .ok (.num n, rest) := by
  rw [intChars]
  by_cases hneg : n < 0
  · rw [if_pos hneg, List.cons_append, parseStep, skipWs_not (by decide)]
    simp only [reduceIte]
    rw [parseNumAbs_natChars _ _ hrest]
    simp only [Except.map]
    have : -(n.natAbs : Int) = n := by omega
    rw [this]
    rw [if_neg (by decide : ¬('-' : Char) = lbraceChar),
      if_neg (by decide : ¬('-' : Char) = '['), if_neg (by decide : ¬('-' : Char) = '"')]
  · rw [if_neg hneg]
    have hmsd : ∃ d t, natChars n.natAbs = digitChar d :: t ∧ d < 10 := by
      by_cases h0 : n.natAbs = 0
      · exact ⟨0, [], by rw [h0]; rfl, by omega⟩
      · obtain ⟨d, t, heq, hd, _⟩ := natChars_head_msd n.natAbs (by omega)
        exact ⟨d, t, heq, hd⟩
    obtain ⟨d, t, heq, hd⟩ := hmsd
    have hbr : digitChar d ≠ lbraceChar ∧ digitChar d ≠ '[' ∧ digitChar d ≠ '"' ∧
        digitChar d ≠ '-' ∧ digitChar d ≠ 't' ∧ digitChar d ≠ 'f' ∧ digitChar d ≠ 'n' ∧
        isWsChar (digitChar d) = false ∧ (digitChar d).isDigit = true := by
      interval_cases d <;> exact ⟨by decide, by decide, by decide, by decide, by decide,
        by decide, by decide, by decide, by decide⟩
    rw [heq, List.cons_append, parseStep, skipWs_not hbr.2.2.2.2.2.2.2.1]
    simp only [reduceIte]
    rw [if_neg hbr.1, if_neg hbr.2.1, if_neg hbr.2.2.1, if_neg hbr.2.2.2.1,
      if_pos hbr.2.2.2.2.2.2.2.2]
    rw [← List.cons_append, ← heq, parseNumAbs_natChars _ _ hrest]
    simp only [Except.map]
    have : (n.natAbs : Int) = n := by omega
    rw [this]

/-- One object member: the key string, the colon, then a value; the
continuation (comma or closing brace) is left symbolic. -/
theorem parseStep_members_one (fuel : Nat) (k : String) (vchars : List Char)
    (v : Json) (rest4 : List Char)
    (hv : parseStep fuel .value vchars = .ok (v, rest4)) :
    parseStep (fuel + 1) .members (quoteChars k ++ ':' :: vchars) =
      match skipWs rest4 with
      | c3 :: rest5 =>
          if c3 = ',' then
            match parseStep fuel .members rest5 with
            | .ok (.obj kvs, rest6) => .ok (.obj (.cons k v kvs), rest6)
            | _ => .error ()
          else if c3 = rbraceChar then .ok (.obj (.cons k v .nil), rest5)
          else .error ()
      | [] => .error () := by
  rw [quoteChars_append, parseStep, skipWs_not (by decide)]
  simp only [reduceIte]
  rw [parseStringTop_escList]
  simp only [skipWs_not (show isWsChar ':' = false by decide)]
  simp only [reduceIte]
  rw [hv]
  simp only [string_mk_data]
  cases skipWs rest4 with
  | nil => rfl
  | cons c3 rest5 => rfl

theorem parseStep_value_entry (fuel : Nat) (e : Entry) (rest : List Char) :
    parseStep (fuel + 4) .value (entryChars e ++ rest) = .ok (entryJson e, rest) := by
  rw [entryChars]
  simp only [List.cons_append, List.append_assoc, List.nil_append]
  -- the opening brace of the entry object
  rw [show fuel + 4 = (fuel + 3) + 1 from rfl, parseStep, skipWs_not (by decide)]
  simp only [reduceIte]
  rw [skipWs_ws (by decide), skipWs_ws (by decide), skipWs_ws (by decide),
    skipWs_ws (by decide), skipWs_ws (by decide)]
  rw [quoteChars_append, skipWs_not (by decide)]
  simp only [reduceIte]
  rw [if_neg (by decide : ¬('"' : Char) = rbraceChar), ← quoteChars_append]
  -- the "hash" member, whose value is the fingerprint string
  have hvhash : parseStep (fuel + 2) .value
      (' ' :: (quoteChars e.hash ++
        ',' :: '\n' :: ' ' :: ' ' :: ' ' :: ' ' :: (quoteChars "size" ++
          ':' :: ' ' :: (intChars e.size ++ '\n' :: ' ' :: ' ' :: rbraceChar :: rest)))) =
      .ok (.str e.hash,
        ',' :: '\n' :: ' ' :: ' ' :: ' ' :: ' ' :: (quoteChars "size" ++
          ':' :: ' ' :: (intChars e.size ++ '\n' :: ' ' :: ' ' :: rbraceChar :: rest))) := by
    rw [show fuel + 2 = (fuel + 1) + 1 from rfl,
      parseStep_value_congr (fuel + 1) (skipWs_ws (by decide) _), parseStep_value_str]
  rw [show fuel + 3 = (fuel + 2) + 1 from rfl, parseStep_members_one _ "hash" _ _ _ hvhash]
  rw [skipWs_not (by decide)]
  simp only [reduceIte]
  -- after the comma: the "size" member, whose value is the integer size
  have hvsize : parseStep (fuel + 1) .value
      (' ' :: (intChars e.size ++ '\n' :: ' ' :: ' ' :: rbraceChar :: rest)) =
      .ok (.num e.size, '\n' :: ' ' :: ' ' :: rbraceChar :: rest) := by
    rw [show fuel + 1 = fuel + 1 from rfl,
      parseStep_value_congr fuel (skipWs_ws (by decide) _),
      parseStep_value_int fuel e.size _ (by intro r hr; simp at hr; rw [← hr]; decide)]
  have hmem2 : parseStep (fuel + 2) .members
      ('\n' :: ' ' :: ' ' :: ' ' :: ' ' :: (quoteChars "size" ++
        ':' :: ' ' :: (intChars e.size ++ '\n' :: ' ' :: ' ' :: rbraceChar :: rest))) =
      .ok (.obj (.cons "size" (.num e.size) .nil), rest) := by
    rw [show fuel + 2 = (fuel + 1) + 1 from rfl,
      parseStep_members_congr (fuel + 1) (skipWs_ws (by decide) _),
      parseStep_members_congr (fuel + 1) (skipWs_ws (by decide) _),
      parseStep_members_congr (fuel + 1) (skipWs_ws (by decide) _),
      parseStep_members_congr (fuel + 1) (skipWs_ws (by decide) _),
      parseStep_members_congr (fuel + 1) (skipWs_ws (by decide) _),
      parseStep_members_one _ "size" _ _ _ hvsize]
    rw [skipWs_ws (by decide), skipWs_ws (by decide), skipWs_ws (by decide),
      skipWs_not (by decide)]
    simp only [reduceIte]
    rw [if_neg (by decide : ¬rbraceChar = ',')]
  rw [hmem2]
  rfl

/-- The members loop of a nonempty manifest: each member is a key, a colon,
an entry object; members are separated by `",\n"` and the loop ends at the
closing brace. -/
theorem parseStep_members_manifest (m : Manifest) : ∀ (k : String) (e : Entry)
    (fuel : Nat) (rest : List Char),
    parseStep (fuel + m.length + 5) .members
      (membersChars ((k, e) :: m) ++ '\n' :: rbraceChar :: rest) =
    .ok (.obj (manifestJsonObj ((k, e) :: m)), rest) := by
  induction m with
  | nil =>
      intro k e fuel rest
      rw [membersChars, memberChars]
      simp only [List.cons_append, List.append_assoc, List.length_nil]
      have hv : parseStep (fuel + 4) .value
          (' ' :: (entryChars e ++ '\n' :: rbraceChar :: rest)) =
          .ok (entryJson e, '\n' :: rbraceChar :: rest) := by
        rw [show fuel + 4 = (fuel + 3) + 1 from rfl,
          parseStep_value_congr (fuel + 3) (skipWs_ws (by decide) _),
          show (fuel + 3) + 1 = fuel + 4 from rfl, parseStep_value_entry]
      rw [show fuel + 0 + 5 = ((fuel + 4) + 1) from by omega,
        parseStep_members_congr (fuel + 4) (skipWs_ws (by decide) _),
        parseStep_members_congr (fuel + 4) (skipWs_ws (by decide) _),
        parseStep_members_one _ k _ _ _ hv]
      rw [skipWs_ws (by decide), skipWs_not (by decide)]
      simp only [reduceIte]
      rw [if_neg (by decide : ¬rbraceChar = ',')]
      rfl
  | cons ke2 m ih =>
      intro k e fuel rest
      obtain ⟨k2, e2⟩ := ke2
      rw [membersChars, memberChars]
      simp only [List.cons_append, List.append_assoc, List.length_cons]
      have hv : parseStep (fuel + m.length + 5) .value
          (' ' :: (entryChars e ++ ',' :: '\n' ::
            (membersChars ((k2, e2) :: m) ++ '\n' :: rbraceChar :: rest))) =
          .ok (entryJson e, ',' :: '\n' ::
            (membersChars ((k2, e2) :: m) ++ '\n' :: rbraceChar :: rest)) := by
        rw [show fuel + m.length + 5 = ((fuel + m.length + 4)) + 1 from by omega,
          parseStep_value_congr (fuel + m.length + 4) (skipWs_ws (by decide) _),
          show (fuel + m.length + 4) + 1 = (fuel + m.length + 1) + 4 from by omega,
          parseStep_value_entry]
      rw [show fuel + (m.length + 1) + 5 = ((fuel + m.length + 5)) + 1 from by omega,
        parseStep_members_congr (fuel + m.length + 5) (skipWs_ws (by decide) _),
        parseStep_members_congr (fuel + m.length + 5) (skipWs_ws (by decide) _),
        parseStep_members_one _ k _ _ _ hv]
      rw [skipWs_not (by decide)]
      simp only [reduceIte]
      rw [show fuel + m.length + 5 = ((fuel + m.length + 4)) + 1 from by omega,
        parseStep_members_congr (fuel + m.length + 4) (skipWs_ws (by decide) _),
        show (fuel + m.length + 4) + 1 = fuel + m.length + 5 from by omega,
        ih k2 e2 fuel rest]
      · rfl
      · simp

/-- A nonempty manifest's members render with the first key's quote as the
first non-blank character. -/
theorem membersChars_shape (k : String) (e : Entry) (m : Manifest) (x : List Char) :
    ∃ w, membersChars ((k, e) :: m) ++ x =
      ' ' :: ' ' :: (quoteChars k ++ ':' :: ' ' :: (entryChars e ++ w)) := by
  cases m with
  | nil =>
      refine ⟨x, ?_⟩
      rw [membersChars, memberChars]
      simp only [List.cons_append, List.append_assoc]
  | cons ke2 m =>
      refine ⟨',' :: '\n' :: (membersChars (ke2 :: m) ++ x), ?_⟩
      rw [membersChars, memberChars]
      · simp only [List.cons_append, List.append_assoc]
      · simp

/-- A `{`-opened object whose members parse is known. -/
theorem parseStep_value_obj (f : Nat) (cs tail0 : List Char) (o : JsonObj)
    (rest : List Char) (h1 : skipWs cs = '"' :: tail0)
    (h2 : parseStep (f + 1) .members cs = .ok (.obj o, rest)) :
    parseStep ((f + 1) + 1) .value (lbraceChar :: cs) = .ok (.obj o, rest) := by
  rw [parseStep, skipWs_not (by decide)]
  simp only [reduceIte]
  rw [h1]
  simp only [reduceIte]
  rw [if_neg (by decide : ¬('"' : Char) = rbraceChar)]
  have hskipEq : skipWs ('"' :: tail0) = skipWs cs := by
    rw [h1, skipWs_not (by decide)]
  rw [parseStep_members_congr f hskipEq, h2]

theorem membersChars_length_ge (m : Manifest) : m.length ≤ (membersChars m).length := by
  induction m with
  | nil => simp [membersChars]
  | cons ke m ih =>
      obtain ⟨k, e⟩ := ke
      have h1 : 1 ≤ (memberChars k e).length := by
        rw [memberChars]; simp
      cases m with
      | nil => rw [membersChars]; simpa using h1
      | cons ke2 m2 =>
          rw [membersChars]
          · simp only [List.length_append, List.length_cons] at ih ⊢
            omega
          · simp

/-- `load(save(M))` returns exactly the JSON value of `M`, for every
manifest. -/
theorem jsonLoads_save_manifest (m : Manifest) :
    jsonLoads (save_manifest m) = .ok (manifestToJson m) := by
  cases m with
  | nil => decide
  | cons ke m =>
      obtain ⟨k, e⟩ := ke
      have hdata : (save_manifest ((k, e) :: m)).data =
          lbraceChar :: '\n' :: (membersChars ((k, e) :: m) ++ '\n' :: rbraceChar :: []) := by
        rw [save_manifest]
      have hlen : ((k, e) :: m).length + 4 ≤ (save_manifest ((k, e) :: m)).data.length := by
        rw [hdata]
        simp only [List.length_cons, List.length_append]
        have := membersChars_length_ge ((k, e) :: m)
        simp only [List.length_cons] at this ⊢
        omega
      obtain ⟨f, hf⟩ : ∃ f, 2 * (save_manifest ((k, e) :: m)).data.length + 2 =
          ((f + m.length + 5) + 1) + 1 := by
        refine ⟨2 * (save_manifest ((k, e) :: m)).data.length + 2 - m.length - 7, ?_⟩
        simp only [List.length_cons] at hlen
        omega
      obtain ⟨w, hw⟩ := membersChars_shape k e m ('\n' :: rbraceChar :: [])
      have h1 : skipWs ('\n' :: (membersChars ((k, e) :: m) ++ '\n' :: rbraceChar :: [])) =
          '"' :: (escList k.data ++ '"' :: (':' :: ' ' :: (entryChars e ++ w))) := by
        rw [hw, skipWs_ws (by decide), skipWs_ws (by decide), skipWs_ws (by decide),
          quoteChars_append, skipWs_not (by decide)]
      have h2 : parseStep ((f + m.length + 5) + 1) .members
          ('\n' :: (membersChars ((k, e) :: m) ++ '\n' :: rbraceChar :: [])) =
          .ok (.obj (manifestJsonObj ((k, e) :: m)), []) := by
        rw [parseStep_members_congr (f + m.length + 5) (skipWs_ws (by decide) _),
          show (f + m.length + 5) + 1 = (f + 1) + m.length + 5 from by omega,
          parseStep_members_manifest m k e (f + 1) []]
      rw [jsonLoads, hf, hdata,
        parseStep_value_obj (f + m.length + 5) _ _ _ _ h1 h2]
      rfl

/-! ## Lemmas: relative-path strings -/

theorem validNameB_parts {s : String} (h : validNameB s = true) :
    s.data ≠ [] ∧ '/' ∉ s.data := by
  rw [validNameB, Bool.and_eq_true] at h
  refine ⟨?_, ?_⟩
  · intro hnil
    rw [hnil] at h
    simp at h
  · intro hmem
    have := h.2
    simp at this
    exact this hmem

theorem splitGo_no_slash (cs : List Char) (h : '/' ∉ cs) :
    ∀ acc, splitGo acc cs = [⟨acc.reverse ++ cs⟩] := by
  induction cs with
  | nil => intro acc; rw [splitGo]; simp
  | cons c cs ih =>
      intro acc
      rw [splitGo, if_neg (by intro hc; exact h (by rw [hc]; exact List.mem_cons_self _ _))]
      rw [ih (fun hm => h (by simp [hm])) (c :: acc)]
      simp

theorem splitGo_slash (xs : List Char) (h : '/' ∉ xs) (ys : List Char) :
    ∀ acc, splitGo acc (xs ++ '/' :: ys) = ⟨acc.reverse ++ xs⟩ :: splitGo [] ys := by
  induction xs with
  | nil => intro acc; rw [List.nil_append, splitGo, if_pos rfl]; simp
  | cons x xs ih =>
      intro acc
      rw [List.cons_append, splitGo, if_neg (by intro hc; exact h (by rw [hc]; exact List.mem_cons_self _ _))]
      rw [ih (fun hm => h (by simp [hm])) (x :: acc)]
      simp

theorem splitPath_joinPath (l : List String) (hne : l ≠ [])
    (hval : ∀ s ∈ l, validNameB s = true) : splitPath (joinPath l) = l := by
  induction l with
  | nil => exact absurd rfl hne
  | cons n rest ih =>
      obtain ⟨hnd, hns⟩ := validNameB_parts (hval n (by simp))
      cases rest with
      | nil =>
          rw [joinPath, joinChars, splitPath, splitGo_no_slash n.data hns []]
          simp [string_mk_data]
      | cons n2 rest2 =>
          rw [joinPath, show joinChars (n :: n2 :: rest2) =
            n.data ++ '/' :: joinChars (n2 :: rest2) from by rw [joinChars]; simp, splitPath]
          have hd : (⟨n.data ++ '/' :: joinChars (n2 :: rest2)⟩ : String).data =
              n.data ++ '/' :: joinChars (n2 :: rest2) := rfl
          rw [hd, splitGo_slash n.data hns _ []]
          rw [List.reverse_nil, List.nil_append, string_mk_data]
          have : splitGo [] (joinChars (n2 :: rest2)) = n2 :: rest2 := by
            have := ih (by simp) (fun s hs => hval s (by simp [hs]))
            rw [joinPath, splitPath] at this
            exact this
          rw [this]

theorem joinPath_inj {p q : List String} (hpne : p ≠ []) (hqne : q ≠ [])
    (hpv : ∀ s ∈ p, validNameB s = true) (hqv : ∀ s ∈ q, validNameB s = true)
    (h : joinPath p = joinPath q) : p = q := by
  rw [← splitPath_joinPath p hpne hpv, ← splitPath_joinPath q hqne hqv, h]

/-! ## Lemmas: the tree walk -/

theorem find_some_mem_names : ∀ {es : FsEntries} {n : String} {t : FsTree},
    es.find n = some t → n ∈ es.names
  | .nil, n, t, h => by simp [FsEntries.find] at h
  | .cons n2 t2 rest, n, t, h => by
      rw [FsEntries.find] at h
      by_cases he : n2 = n
      · rw [FsEntries.names, he]
        exact List.mem_cons_self _ _
      · rw [if_neg he] at h
        rw [FsEntries.names]
        exact List.mem_cons_of_mem _ (find_some_mem_names h)

theorem entriesOk_cons {n : String} {t : FsTree} {rest : FsEntries}
    (h : entriesOk (.cons n t rest) = true) :
    validNameB n = true ∧ n ∉ FsEntries.names rest ∧
      fsOk t = true ∧ entriesOk rest = true := by
  rw [entriesOk] at h
  simp only [Bool.and_eq_true, Bool.not_eq_true'] at h
  refine ⟨h.1.1.1, ?_, h.1.2, h.2⟩
  intro hm
  have h2 := h.1.1.2
  rw [show (FsEntries.names rest).contains n = (FsEntries.names rest).elem n from rfl,
    List.elem_eq_true_of_mem hm] at h2
  exact absurd h2 (by simp)

theorem entriesOk_find_fsOk : ∀ {es : FsEntries} {n : String} {t : FsTree},
    entriesOk es = true → es.find n = some t → fsOk t = true
  | .nil, n, t, _, h => by simp [FsEntries.find] at h
  | .cons n2 t2 rest, n, t, hok, h => by
      obtain ⟨_, _, ht2, hrest⟩ := entriesOk_cons hok
      rw [FsEntries.find] at h
      by_cases he : n2 = n
      · rw [if_pos he] at h
        cases h
        exact ht2
      · rw [if_neg he] at h
        exact entriesOk_find_fsOk hrest h

theorem filesOfEntries_shift : ∀ (pre : List String) (es : FsEntries),
    filesOfEntries pre es = (filesOfEntries [] es).map (fun q => pre ++ q)
  | _, .nil => rfl
  | pre, .cons n (.file c) rest => by
      rw [filesOfEntries, filesOfEntries, filesOfEntries_shift pre rest,
        filesOfEntries_shift [] rest]
      simp
  | pre, .cons n (.dir b es2) rest => by
      rw [filesOfEntries, filesOfEntries]
      exact filesOfEntries_shift pre rest

mutual
theorem walkTree_shift : ∀ (pre : List String) (t : FsTree),
    walkTree pre t = (walkTree [] t).map (fun q => pre ++ q)
  | _, .file _ => by simp [walkTree]
  | _, .dir false _ => by simp [walkTree]
  | pre, .dir true es => by
      rw [walkTree, walkTree, walkSubdirs_shift pre es, walkSubdirs_shift [] es,
        filesOfEntries_shift pre es]
      simp
theorem walkSubdirs_shift : ∀ (pre : List String) (es : FsEntries),
    walkSubdirs pre es = (walkSubdirs [] es).map (fun q => pre ++ q)
  | _, .nil => by simp [walkSubdirs]
  | pre, .cons n t rest => by
      rw [walkSubdirs, walkSubdirs]
      simp only [List.nil_append]
      rw [walkTree_shift (pre ++ [n]) t, walkTree_shift [n] t,
        walkSubdirs_shift pre rest, walkSubdirs_shift [] rest]
      simp [Function.comp_def]
end

theorem mem_filesOfEntries : ∀ {es : FsEntries} {q : List String},
    q ∈ filesOfEntries [] es → ∃ n, q = [n] ∧ n ∈ fileNamesE es
  | .nil, q, h => by simp [filesOfEntries] at h
  | .cons n (.file c) rest, q, h => by
      rw [filesOfEntries] at h
      rcases List.mem_cons.mp h with h1 | h2
      · exact ⟨n, by simpa using h1, by rw [fileNamesE]; exact List.mem_cons_self _ _⟩
      · obtain ⟨n2, hq, hm⟩ := mem_filesOfEntries h2
        exact ⟨n2, hq, by rw [fileNamesE]; exact List.mem_cons_of_mem _ hm⟩
  | .cons n (.dir b es2) rest, q, h => by
      rw [filesOfEntries] at h
      obtain ⟨n2, hq, hm⟩ := mem_filesOfEntries h
      exact ⟨n2, hq, by rw [fileNamesE]; exact hm⟩

theorem mem_walkSubdirs_names : ∀ {es : FsEntries} {q : List String},
    q ∈ walkSubdirs [] es → ∃ n q', q = n :: q' ∧ n ∈ FsEntries.names es
  | .nil, q, h => by simp [walkSubdirs] at h
  | .cons n t rest, q, h => by
      rw [walkSubdirs] at h
      simp only [List.nil_append] at h
      rcases List.mem_append.mp h with h1 | h2
      · rw [walkTree_shift [n] t] at h1
        obtain ⟨q0, _, rfl⟩ := List.mem_map.mp h1
        exact ⟨n, q0, rfl, by rw [FsEntries.names]; exact List.mem_cons_self _ _⟩
      · obtain ⟨n2, q', hq, hm⟩ := mem_walkSubdirs_names h2
        exact ⟨n2, q', hq, by rw [FsEntries.names]; exact List.mem_cons_of_mem _ hm⟩

theorem walkTree_mem_ne_nil {t : FsTree} {q : List String}
    (h : q ∈ walkTree [] t) : q ≠ [] := by
  cases t with
  | file c => simp [walkTree] at h
  | dir b es =>
      cases b with
      | false => simp [walkTree] at h
      | true =>
          rw [walkTree] at h
          rcases List.mem_append.mp h with h1 | h2
          · obtain ⟨n, rfl, _⟩ := mem_filesOfEntries h1
            simp
          · obtain ⟨n, q', rfl, _⟩ := mem_walkSubdirs_names h2
            simp

theorem mem_walkSubdirs_structure : ∀ {es : FsEntries} {q : List String},
    entriesOk es = true → q ∈ walkSubdirs [] es →
    ∃ n t' q', q = n :: q' ∧ es.find n = some t' ∧ q' ∈ walkTree [] t' ∧ q' ≠ []
  | .nil, q, _, h => by simp [walkSubdirs] at h
  | .cons n t rest, q, hok, h => by
      obtain ⟨_, hnm, _, hrest⟩ := entriesOk_cons hok
      rw [walkSubdirs] at h
      simp only [List.nil_append] at h
      rcases List.mem_append.mp h with h1 | h2
      · rw [walkTree_shift [n] t] at h1
        obtain ⟨q0, hq0, rfl⟩ := List.mem_map.mp h1
        refine ⟨n, t, q0, rfl, ?_, hq0, walkTree_mem_ne_nil hq0⟩
        rw [FsEntries.find, if_pos rfl]
      · obtain ⟨n2, t2, q', hq, hfind, hmem, hne⟩ := mem_walkSubdirs_structure hrest h2
        refine ⟨n2, t2, q', hq, ?_, hmem, hne⟩
        have hn2 : n2 ∈ FsEntries.names rest := find_some_mem_names hfind
        rw [FsEntries.find, if_neg (by intro he; exact hnm (he ▸ hn2))]
        exact hfind

theorem fileNamesE_subset_names : ∀ (es : FsEntries) (n : String),
    n ∈ fileNamesE es → n ∈ es.names
  | .nil, n, h => by simp [fileNamesE] at h
  | .cons n2 (.file c) rest, n, h => by
      rw [fileNamesE] at h
      rw [FsEntries.names]
      rcases List.mem_cons.mp h with h1 | h1
      · exact h1 ▸ List.mem_cons_self _ _
      · exact List.mem_cons_of_mem _ (fileNamesE_subset_names rest n h1)
  | .cons n2 (.dir b es2) rest, n, h => by
      rw [fileNamesE] at h
      rw [FsEntries.names]
      exact List.mem_cons_of_mem _ (fileNamesE_subset_names rest n h)

theorem fileNamesE_nodup : ∀ (es : FsEntries), entriesOk es = true →
    (fileNamesE es).Nodup
  | .nil, _ => by simp [fileNamesE]
  | .cons n (.file c) rest, hok => by
      obtain ⟨_, hnm, _, hrest⟩ := entriesOk_cons hok
      rw [fileNamesE, List.nodup_cons]
      exact ⟨fun hm => hnm (fileNamesE_subset_names rest n hm), fileNamesE_nodup rest hrest⟩
  | .cons n (.dir b es2) rest, hok => by
      obtain ⟨_, _, _, hrest⟩ := entriesOk_cons hok
      rw [fileNamesE]
      exact fileNamesE_nodup rest hrest

theorem fileNamesE_valid : ∀ (es : FsEntries), entriesOk es = true →
    ∀ n ∈ fileNamesE es, validNameB n = true
  | .nil, _, n, h => by simp [fileNamesE] at h
  | .cons n2 (.file c) rest, hok, n, h => by
      obtain ⟨hv, _, _, hrest⟩ := entriesOk_cons hok
      rw [fileNamesE] at h
      rcases List.mem_cons.mp h with h1 | h1
      · exact h1 ▸ hv
      · exact fileNamesE_valid rest hrest n h1
  | .cons n2 (.dir b es2) rest, hok, n, h => by
      obtain ⟨_, _, _, hrest⟩ := entriesOk_cons hok
      rw [fileNamesE] at h
      exact fileNamesE_valid rest hrest n h

theorem filesOfEntries_eq_map : ∀ (es : FsEntries),
    filesOfEntries [] es = (fileNamesE es).map (fun n => [n])
  | .nil => rfl
  | .cons n (.file c) rest => by
      rw [filesOfEntries, fileNamesE, List.map_cons, filesOfEntries_eq_map rest]
      rfl
  | .cons n (.dir b es2) rest => by
      rw [filesOfEntries, fileNamesE, filesOfEntries_eq_map rest]

theorem find_filesOf : ∀ {es : FsEntries} {q : List String}, entriesOk es = true →
    q ∈ filesOfEntries [] es → ∃ n c, q = [n] ∧ es.find n = some (.file c)
  | .nil, q, _, h => by simp [filesOfEntries] at h
  | .cons n (.file c) rest, q, hok, h => by
      obtain ⟨_, hnm, _, hrest⟩ := entriesOk_cons hok
      rw [filesOfEntries] at h
      rcases List.mem_cons.mp h with h1 | h1
      · exact ⟨n, c, by simpa using h1, by rw [FsEntries.find, if_pos rfl]⟩
      · obtain ⟨n2, c2, hq, hfind⟩ := find_filesOf hrest h1
        refine ⟨n2, c2, hq, ?_⟩
        have : n2 ∈ FsEntries.names rest := find_some_mem_names hfind
        rw [FsEntries.find, if_neg (by intro he; exact hnm (he ▸ this))]
        exact hfind
  | .cons n (.dir b es2) rest, q, hok, h => by
      obtain ⟨_, hnm, _, hrest⟩ := entriesOk_cons hok
      rw [filesOfEntries] at h
      obtain ⟨n2, c2, hq, hfind⟩ := find_filesOf hrest h
      refine ⟨n2, c2, hq, ?_⟩
      have : n2 ∈ FsEntries.names rest := find_some_mem_names hfind
      rw [FsEntries.find, if_neg (by intro he; exact hnm (he ▸ this))]
      exact hfind

mutual
theorem walkTree_nodup : ∀ (t : FsTree), fsOk t = true → (walkTree [] t).Nodup
  | .file _, _ => by simp [walkTree]
  | .dir false _, _ => by simp [walkTree]
  | .dir true es, hok => by
      rw [walkTree, List.nodup_append]
      have hek : entriesOk es = true := by rwa [fsOk] at hok
      refine ⟨?_, walkSubdirs_nodup es hek, ?_⟩
      · rw [filesOfEntries_eq_map]
        exact (fileNamesE_nodup es hek).map (fun a b h => by simpa using h)
      · intro q hq hq2
        obtain ⟨n, rfl, _⟩ := mem_filesOfEntries hq
        obtain ⟨n2, t2, q', hq', _, _, hne⟩ := mem_walkSubdirs_structure hek hq2
        simp only [List.cons.injEq] at hq'
        exact hne hq'.2.symm
theorem walkSubdirs_nodup : ∀ (es : FsEntries), entriesOk es = true →
    (walkSubdirs [] es).Nodup
  | .nil, _ => by simp [walkSubdirs]
  | .cons n t rest, hok => by
      obtain ⟨_, hnm, ht, hrest⟩ := entriesOk_cons hok
      rw [walkSubdirs]
      simp only [List.nil_append]
      rw [List.nodup_append]
      refine ⟨?_, walkSubdirs_nodup rest hrest, ?_⟩
      · rw [walkTree_shift [n] t]
        exact (walkTree_nodup t ht).map fun a b h => by simpa using h
      · intro q hq hq2
        rw [walkTree_shift [n] t] at hq
        obtain ⟨q0, _, rfl⟩ := List.mem_map.mp hq
        obtain ⟨n2, q', hq', hmm⟩ := mem_walkSubdirs_names hq2
        simp only [List.singleton_append, List.cons.injEq] at hq'
        exact hnm (hq'.1 ▸ hmm)
end

mutual
theorem walkTree_valid : ∀ (t : FsTree), fsOk t = true →
    ∀ q ∈ walkTree [] t, ∀ s ∈ q, validNameB s = true
  | .file _, _, q, hq => by simp [walkTree] at hq
  | .dir false _, _, q, hq => by simp [walkTree] at hq
  | .dir true es, hok, q, hq => by
      have hek : entriesOk es = true := by rwa [fsOk] at hok
      rw [walkTree] at hq
      rcases List.mem_append.mp hq with h1 | h2
      · obtain ⟨n, rfl, hn⟩ := mem_filesOfEntries h1
        intro s hs
        simp at hs
        exact hs ▸ fileNamesE_valid es hek n hn
      · exact walkSubdirs_valid es hek q h2
theorem walkSubdirs_valid : ∀ (es : FsEntries), entriesOk es = true →
    ∀ q ∈ walkSubdirs [] es, ∀ s ∈ q, validNameB s = true
  | .nil, _, q, hq => by simp [walkSubdirs] at hq
  | .cons n t rest, hok, q, hq => by
      obtain ⟨hv, _, ht, hrest⟩ := entriesOk_cons hok
      rw [walkSubdirs] at hq
      simp only [List.nil_append] at hq
      rcases List.mem_append.mp hq with h1 | h2
      · rw [walkTree_shift [n] t] at h1
        obtain ⟨q0, hq0, rfl⟩ := List.mem_map.mp h1
        intro s hs
        simp only [List.singleton_append, List.mem_cons] at hs
        rcases hs with h | h
        · exact h ▸ hv
        · exact walkTree_valid t ht q0 hq0 s h
      · exact walkSubdirs_valid rest hrest q h2
end

mutual
theorem walkTree_reads : ∀ (t : FsTree), fsOk t = true →
    ∀ q ∈ walkTree [] t, ∃ c, resolvePath t q = some (.file c)
  | .file _, _, q, hq => by simp [walkTree] at hq
  | .dir false _, _, q, hq => by simp [walkTree] at hq
  | .dir true es, hok, q, hq => by
      have hek : entriesOk es = true := by rwa [fsOk] at hok
      rw [walkTree] at hq
      rcases List.mem_append.mp hq with h1 | h2
      · obtain ⟨n, c, rfl, hfind⟩ := find_filesOf hek h1
        refine ⟨c, ?_⟩
        rw [resolvePath, hfind]
        rfl
      · obtain ⟨n, t', q', rfl, hfind, c, hres⟩ := walkSubdirs_reads es hek q h2
        refine ⟨c, ?_⟩
        rw [resolvePath, hfind]
        exact hres
theorem walkSubdirs_reads : ∀ (es : FsEntries), entriesOk es = true →
    ∀ q ∈ walkSubdirs [] es,
      ∃ n t' q', q = n :: q' ∧ es.find n = some t' ∧ ∃ c, resolvePath t' q' = some (.file c)
  | .nil, _, q, hq => by simp [walkSubdirs] at hq
  | .cons n t rest, hok, q, hq => by
      obtain ⟨_, hnm, ht, hrest⟩ := entriesOk_cons hok
      rw [walkSubdirs] at hq
      simp only [List.nil_append] at hq
      rcases List.mem_append.mp hq with h1 | h2
      · rw [walkTree_shift [n] t] at h1
        obtain ⟨q0, hq0, rfl⟩ := List.mem_map.mp h1
        obtain ⟨c, hres⟩ := walkTree_reads t ht q0 hq0
        exact ⟨n, t, q0, rfl, by rw [FsEntries.find, if_pos rfl], c, hres⟩
      · obtain ⟨n2, t2, q', hq', hfind, hc⟩ := walkSubdirs_reads rest hrest q h2
        refine ⟨n2, t2, q', hq', ?_, hc⟩
        have : n2 ∈ FsEntries.names rest := find_some_mem_names hfind
        rw [FsEntries.find, if_neg (by intro he; exact hnm (he ▸ this))]
        exact hfind
end

theorem resolvePath_append : ∀ (p : List String) (t : FsTree) (q : List String),
    resolvePath t (p ++ q) =
      match resolvePath t p with
      | some t' => resolvePath t' q
      | none => none := by
  intro p
  induction p with
  | nil =>
      intro t q
      rw [List.nil_append, show resolvePath t [] = some t from by cases t <;> rfl]
  | cons n p ih =>
      intro t q
      cases t with
      | file c => rfl
      | dir b es =>
          rw [List.cons_append, resolvePath, resolvePath]
          cases es.find n with
          | none => rfl
          | some t' => exact ih t' q

theorem fsOk_resolvePath : ∀ (p : List String) (t : FsTree) (t' : FsTree),
    fsOk t = true → resolvePath t p = some t' → fsOk t' = true := by
  intro p
  induction p with
  | nil =>
      intro t t' hok h
      rw [resolvePath] at h
      cases h
      exact hok
  | cons n p ih =>
      intro t t' hok h
      cases t with
      | file c => simp [resolvePath] at h
      | dir b es =>
          rw [resolvePath] at h
          cases hfind : es.find n with
          | none => rw [hfind] at h; simp at h
          | some t2 =>
              rw [hfind] at h
              have hek : entriesOk es = true := by rwa [fsOk] at hok
              exact ih t2 t' (entriesOk_find_fsOk hek hfind) h

/-! ## Lemmas: manifests and the differ -/

theorem keyList_manifestJsonObj : ∀ (m : Manifest),
    (manifestJsonObj m).keyList = manifestKeys m
  | [] => rfl
  | (k, e) :: rest => by
      rw [manifestJsonObj, JsonObj.keyList, keyList_manifestJsonObj rest]
      rfl

theorem getLast_manifestJsonObj : ∀ (m : Manifest) (f : String),
    (manifestJsonObj m).getLast f = (lookupLastEntry m f).map entryJson
  | [], _ => rfl
  | (k, e) :: rest, f => by
      rw [manifestJsonObj, JsonObj.getLast, lookupLastEntry, getLast_manifestJsonObj rest f]
      cases lookupLastEntry rest f with
      | some r => rfl
      | none =>
          by_cases h : k = f
          · simp [h]
          · simp [h]

theorem hashField_manifest (m : Manifest) (f : String) :
    hashField (manifestJsonObj m) f = (lookupLastEntry m f).map (fun e => Json.str e.hash) := by
  rw [hashField, getLast_manifestJsonObj]
  cases lookupLastEntry m f with
  | none => rfl
  | some e => rfl

theorem lookupLastEntry_not_mem : ∀ (m : Manifest) (f : String),
    f ∉ manifestKeys m → lookupLastEntry m f = none
  | [], _, _ => rfl
  | (k, e) :: rest, f, h => by
      rw [manifestKeys, List.map_cons] at h
      rw [lookupLastEntry,
        lookupLastEntry_not_mem rest f (fun hm => h (List.mem_cons_of_mem _ hm))]
      rw [if_neg (fun he => h (by rw [he]; exact List.mem_cons_self _ _))]

theorem lookupLastEntry_of_mem_keys : ∀ (m : Manifest) (f : String),
    f ∈ manifestKeys m → ∃ e, lookupLastEntry m f = some e
  | [], f, h => by simp [manifestKeys] at h
  | (k, e) :: rest, f, h => by
      rw [lookupLastEntry]
      cases hrest : lookupLastEntry rest f with
      | some r => exact ⟨r, rfl⟩
      | none =>
          rw [manifestKeys, List.map_cons] at h
          rcases List.mem_cons.mp h with h1 | h1
          · exact ⟨e, by rw [if_pos h1.symm]⟩
          · obtain ⟨e2, he2⟩ := lookupLastEntry_of_mem_keys rest f h1
            rw [he2] at hrest
            cases hrest

theorem lookupLastEntry_of_mem : ∀ {m : Manifest} {f : String} {e : Entry},
    (manifestKeys m).Nodup → (f, e) ∈ m → lookupLastEntry m f = some e
  | [], f, e, _, h => by simp at h
  | (k, e2) :: rest, f, e, hnd, h => by
      rw [manifestKeys, List.map_cons, List.nodup_cons] at hnd
      rcases List.mem_cons.mp h with h1 | h1
      · injection h1 with hf he
        subst hf
        subst he
        rw [lookupLastEntry, lookupLastEntry_not_mem rest f hnd.1, if_pos rfl]
      · rw [lookupLastEntry, lookupLastEntry_of_mem hnd.2 h1]

theorem lookupLastEntry_some_mem : ∀ {m : Manifest} {f : String} {e : Entry},
    lookupLastEntry m f = some e → (f, e) ∈ m
  | [], f, e, h => by simp [lookupLastEntry] at h
  | (k, e2) :: rest, f, e, h => by
      rw [lookupLastEntry] at h
      cases hrest : lookupLastEntry rest f with
      | some r =>
          rw [hrest] at h
          cases h
          exact List.mem_cons_of_mem _ (lookupLastEntry_some_mem hrest)
      | none =>
          rw [hrest] at h
          by_cases he : k = f
          · rw [if_pos he] at h
            cases h
            rw [he]
            exact List.mem_cons_self _ _
          · rw [if_neg he] at h
            cases h

theorem manifestKeys_perm {m1 m2 : Manifest} (h : m1.Perm m2) :
    (manifestKeys m1).Perm (manifestKeys m2) := h.map Prod.fst

theorem lookupLastEntry_perm {m1 m2 : Manifest} (hp : m1.Perm m2)
    (hnd : (manifestKeys m1).Nodup) (f : String) :
    lookupLastEntry m1 f = lookupLastEntry m2 f := by
  have hnd2 : (manifestKeys m2).Nodup := (manifestKeys_perm hp).nodup_iff.mp hnd
  cases h1 : lookupLastEntry m1 f with
  | some e =>
      exact (lookupLastEntry_of_mem hnd2 (hp.mem_iff.mp (lookupLastEntry_some_mem h1))).symm
  | none =>
      cases h2 : lookupLastEntry m2 f with
      | none => rfl
      | some e =>
          have := hp.mem_iff.mpr (lookupLastEntry_some_mem h2)
          rw [lookupLastEntry_of_mem hnd this] at h1
          cases h1

/-- The differ on two well-formed (built) manifests: no `KeyError` is
possible, and the three result sets are the specified ones. -/
theorem diff_manifests_built (m1 m2 : Manifest)
    (h1 : (manifestKeys m1).Nodup) (h2 : (manifestKeys m2).Nodup) :
    diff_manifests (manifestToJson m1) (manifestToJson m2) =
      .ok ((manifestKeys m2).toFinset \ (manifestKeys m1).toFinset,
           (manifestKeys m1).toFinset \ (manifestKeys m2).toFinset,
           ((manifestKeys m1).toFinset ∩ (manifestKeys m2).toFinset).filter
             (fun f => (lookupLastEntry m1 f).map Entry.hash ≠
               (lookupLastEntry m2 f).map Entry.hash)) := by
  rw [manifestToJson, manifestToJson, diff_manifests]
  rw [keyList_manifestJsonObj, keyList_manifestJsonObj]
  have hguard : ∀ f ∈ (manifestKeys m1).toFinset ∩ (manifestKeys m2).toFinset,
      (hashField (manifestJsonObj m1) f).isSome ∧ (hashField (manifestJsonObj m2) f).isSome := by
    intro f hf
    rw [Finset.mem_inter, List.mem_toFinset, List.mem_toFinset] at hf
    obtain ⟨e1, he1⟩ := lookupLastEntry_of_mem_keys m1 f hf.1
    obtain ⟨e2, he2⟩ := lookupLastEntry_of_mem_keys m2 f hf.2
    rw [hashField_manifest, hashField_manifest, he1, he2]
    exact ⟨rfl, rfl⟩
  rw [if_pos hguard]
  have hfilter : Finset.filter
      (fun f => hashField (manifestJsonObj m1) f ≠ hashField (manifestJsonObj m2) f)
      ((manifestKeys m1).toFinset ∩ (manifestKeys m2).toFinset) =
    Finset.filter
      (fun f => (lookupLastEntry m1 f).map Entry.hash ≠ (lookupLastEntry m2 f).map Entry.hash)
      ((manifestKeys m1).toFinset ∩ (manifestKeys m2).toFinset) := by
    apply Finset.filter_congr
    intro f hf
    rw [Finset.mem_inter, List.mem_toFinset, List.mem_toFinset] at hf
    obtain ⟨e1, he1⟩ := lookupLastEntry_of_mem_keys m1 f hf.1
    obtain ⟨e2, he2⟩ := lookupLastEntry_of_mem_keys m2 f hf.2
    rw [hashField_manifest, hashField_manifest, he1, he2]
    simp
  rw [hfilter]

/-! ## Lemmas: the built manifest over a walked tree -/

theorem build_manifest_sched_keys (fs : FsTree) (root : List String) (t : Nat)
    (sched : List (List String)) :
    manifestKeys (build_manifest_sched fs root t sched) =
      sched.map (fun full => joinPath (full.drop root.length)) := by
  rw [build_manifest_sched, manifestKeys, List.map_map]
  rfl

theorem osWalk_resolved {fs : FsTree} {root : List String} {sub : FsTree}
    (h : resolvePath fs root = some sub) :
    osWalk fs root = (walkTree [] sub).map (fun q => root ++ q) := by
  rw [osWalk, h]
  exact walkTree_shift root sub

theorem osWalk_none {fs : FsTree} {root : List String}
    (h : resolvePath fs root = none) : osWalk fs root = [] := by
  rw [osWalk, h]

/-- Keys of a built manifest, relative to the walked subtree. -/
theorem built_keys_map {fs : FsTree} {root : List String} {sub : FsTree} {t : Nat}
    {sched : List (List String)} (hres : resolvePath fs root = some sub)
    (hs : sched.Perm (osWalk fs root)) :
    (manifestKeys (build_manifest_sched fs root t sched)).Perm
      ((walkTree [] sub).map joinPath) := by
  rw [build_manifest_sched_keys]
  have h1 : (sched.map (fun full => joinPath (full.drop root.length))).Perm
      ((osWalk fs root).map (fun full => joinPath (full.drop root.length))) :=
    hs.map _
  refine h1.trans ?_
  rw [osWalk_resolved hres, List.map_map]
  apply List.Perm.of_eq
  apply List.map_congr_left
  intro q _
  simp [Function.comp, List.drop_left]

theorem built_keys_nodup {fs : FsTree} {root : List String} {sub : FsTree} {t : Nat}
    {sched : List (List String)} (hok : fsOk fs = true)
    (hres : resolvePath fs root = some sub) (hs : sched.Perm (osWalk fs root)) :
    (manifestKeys (build_manifest_sched fs root t sched)).Nodup := by
  have hsub : fsOk sub = true := fsOk_resolvePath root fs sub hok hres
  apply (built_keys_map hres hs).nodup_iff.mpr
  apply (walkTree_nodup sub hsub).map_on
  intro q1 h1 q2 h2 heq
  exact joinPath_inj (walkTree_mem_ne_nil h1) (walkTree_mem_ne_nil h2)
    (walkTree_valid sub hsub q1 h1) (walkTree_valid sub hsub q2 h2) heq

/-- Every key of a built manifest names a readable file of the source tree
at the same relative path. -/
theorem built_key_reads {fs : FsTree} {root : List String} {sub : FsTree} {t : Nat}
    {sched : List (List String)} (hok : fsOk fs = true)
    (hres : resolvePath fs root = some sub) (hs : sched.Perm (osWalk fs root)) :
    ∀ p ∈ manifestKeys (build_manifest_sched fs root t sched),
      ∃ c, readFileQ fs (root ++ splitPath p) = some c := by
  have hsub : fsOk sub = true := fsOk_resolvePath root fs sub hok hres
  intro p hp
  have : p ∈ (walkTree [] sub).map joinPath := (built_keys_map hres hs).mem_iff.mp hp
  obtain ⟨q, hq, rfl⟩ := List.mem_map.mp this
  have hsplit : splitPath (joinPath q) = q :=
    splitPath_joinPath q (walkTree_mem_ne_nil hq) (walkTree_valid sub hsub q hq)
  rw [hsplit]
  obtain ⟨c, hc⟩ := walkTree_reads sub hsub q hq
  refine ⟨c, ?_⟩
  rw [readFileQ, resolvePath_append, hres]
  simp only []
  rw [hc]

/-! ## Lemmas: the replicator -/

theorem lookupFile_setFile_self : ∀ (out : OutDir) (k : String) (b : List Nat),
    lookupFile (setFile out k b) k = some b
  | [], k, b => by rw [setFile, lookupFile, if_pos rfl]
  | (k2, b2) :: rest, k, b => by
      rw [setFile]
      by_cases h : k2 = k
      · rw [if_pos h, lookupFile, if_pos rfl]
      · rw [if_neg h, lookupFile, if_neg h]
        exact lookupFile_setFile_self rest k b

theorem lookupFile_setFile_other : ∀ (out : OutDir) (k : String) (b : List Nat)
    (k' : String), k' ≠ k → lookupFile (setFile out k b) k' = lookupFile out k'
  | [], k, b, k', h => by
      simp [setFile, lookupFile, Ne.symm h]
  | (k2, b2) :: rest, k, b, k', h => by
      rw [setFile]
      by_cases h2 : k2 = k
      · rw [if_pos h2, lookupFile, lookupFile, h2,
          if_neg (by intro he; exact h he.symm), if_neg (by intro he; exact h he.symm)]
      · rw [if_neg h2, lookupFile, lookupFile]
        by_cases h3 : k2 = k'
        · rw [if_pos h3, if_pos h3]
        · rw [if_neg h3, if_neg h3]
          exact lookupFile_setFile_other rest k b k' h

theorem copy_files_ok : ∀ (l : List String) (fs : FsTree) (srcRoot : List String)
    (out out' : OutDir), copy_files l fs srcRoot out = .ok out' →
    (∀ p ∈ l, ∃ b, readFileQ fs (srcRoot ++ splitPath p) = some b ∧
        lookupFile out' p = some b) ∧
    (∀ p, p ∉ l → lookupFile out' p = lookupFile out p) := by
  intro l
  induction l with
  | nil =>
      intro fs srcRoot out out' h
      rw [copy_files, List.foldlM_nil] at h
      cases h
      exact ⟨by simp, fun p _ => rfl⟩
  | cons r l ih =>
      intro fs srcRoot out out' h
      rw [copy_files, List.foldlM_cons] at h
      cases htask : _copy_file_task fs srcRoot r out with
      | error e => rw [htask] at h; cases h
      | ok out1 =>
          rw [htask] at h
          rw [_copy_file_task] at htask
          cases hread : readFileQ fs (srcRoot ++ splitPath r) with
          | none => rw [hread] at htask; cases htask
          | some b =>
              rw [hread] at htask
              cases htask
              have hrec : copy_files l fs srcRoot (setFile out r b) = .ok out' := h
              obtain ⟨ih1, ih2⟩ := ih fs srcRoot _ out' hrec
              constructor
              · intro p hp
                rcases List.mem_cons.mp hp with rfl | hp2
                · by_cases hmem : p ∈ l
                  · exact ih1 p hmem
                  · refine ⟨b, hread, ?_⟩
                    rw [ih2 p hmem, lookupFile_setFile_self]
                · exact ih1 p hp2
              · intro p hp
                have hp1 : p ≠ r := fun he => hp (he ▸ List.mem_cons_self _ _)
                have hp2 : p ∉ l := fun hm => hp (List.mem_cons_of_mem _ hm)
                rw [ih2 p hp2, lookupFile_setFile_other out r b p hp1]

/-- What the output directory contains after a successful copy: listed
paths carry the source bytes, all other paths are untouched. -/
theorem copy_files_never_deletes : ∀ (l : List String) (fs : FsTree)
    (srcRoot : List String) (out out' : OutDir),
    copy_files l fs srcRoot out = .ok out' →
    ∀ p b, lookupFile out p = some b → ∃ b', lookupFile out' p = some b' := by
  intro l fs srcRoot out out' h p b hb
  obtain ⟨h1, h2⟩ := copy_files_ok l fs srcRoot out out' h
  by_cases hp : p ∈ l
  · obtain ⟨b2, _, hb2⟩ := h1 p hp
    exact ⟨b2, hb2⟩
  · exact ⟨b, by rw [h2 p hp]; exact hb⟩

/-- Successful runs of `extract_differential` decompose into their steps. -/
theorem extract_differential_ok {fs : FsTree} {srcDir : List String} {oldText : String}
    {out : OutDir}
    {r : (Finset String × Finset String × Finset String) × OutDir}
    (h : extract_differential fs srcDir oldText out = .ok r) :
    ∃ oldJ added removed changed outF,
      load_manifest oldText = .ok oldJ ∧
      diff_manifests oldJ (manifestToJson (build_manifest fs srcDir)) =
        .ok (added, removed, changed) ∧
      copy_files (added.sort (· ≤ ·) ++ changed.sort (· ≤ ·)) fs srcDir out = .ok outF ∧
      r = ((added, removed, changed), outF) := by
  rw [extract_differential] at h
  cases hload : load_manifest oldText with
  | error e =>
      rw [hload] at h
      simp only [bind, Except.bind] at h
      cases h
  | ok oldJ =>
      rw [hload] at h
      simp only [bind, Except.bind] at h
      cases hdiff : diff_manifests oldJ (manifestToJson (build_manifest fs srcDir)) with
      | error e => rw [hdiff] at h; simp at h
      | ok sets =>
          rw [hdiff] at h
          obtain ⟨added, removed, changed⟩ := sets
          simp only [] at h
          cases hcopy : copy_files (added.sort (· ≤ ·) ++ changed.sort (· ≤ ·)) fs srcDir out with
          | error e => rw [hcopy] at h; simp at h
          | ok outF =>
              rw [hcopy] at h
              simp only [pure, Except.pure] at h
              cases h
              exact ⟨oldJ, added, removed, changed, outF, rfl, hdiff, hcopy, rfl⟩

/-! ## Injectivity of the manifest JSON encoding -/

theorem entryJson_inj {e e' : Entry} (h : entryJson e = entryJson e') : e = e' := by
  rw [entryJson, entryJson] at h
  injection h with h1
  injection h1 with _ h2 h3
  injection h2 with h2
  injection h3 with _ h4 _
  injection h4 with h4
  cases e
  cases e'
  simp_all

theorem manifestJsonObj_inj : ∀ {m m' : Manifest},
    manifestJsonObj m = manifestJsonObj m' → m = m'
  | [], [], _ => rfl
  | [], (_, _) :: _, h => by rw [manifestJsonObj, manifestJsonObj] at h; cases h
  | (_, _) :: _, [], h => by rw [manifestJsonObj, manifestJsonObj] at h; cases h
  | (k, e) :: m, (k', e') :: m', h => by
      rw [manifestJsonObj, manifestJsonObj] at h
      injection h with h1 h2 h3
      rw [h1, entryJson_inj h2, manifestJsonObj_inj h3]

/-! ## Shape of a successful diff -/

/-- A successful `diff_manifests` call had two dict arguments (anything else
raises at `.keys()`). -/
theorem diff_manifests_ok_obj {j1 j2 : Json}
    {res : Finset String × Finset String × Finset String}
    (h : diff_manifests j1 j2 = .ok res) :
    ∃ o1 o2, j1 = .obj o1 ∧ j2 = .obj o2 := by
  cases j1 <;> cases j2 <;> first
    | exact ⟨_, _, rfl, rfl⟩
    | simp [diff_manifests] at h

/-- On dict arguments, a successful diff's three sets are the key-set
differences and a subset of the common keys. -/
theorem diff_manifests_obj_ok {o1 o2 : JsonObj} {a r c : Finset String}
    (h : diff_manifests (.obj o1) (.obj o2) = .ok (a, r, c)) :
    a = o2.keyList.toFinset \ o1.keyList.toFinset ∧
    r = o1.keyList.toFinset \ o2.keyList.toFinset ∧
    c ⊆ o1.keyList.toFinset ∩ o2.keyList.toFinset := by
  simp only [diff_manifests] at h
  split at h
  · injection h with h'
    injection h' with h1 h23
    injection h23 with h2 h3
    subst h1
    subst h2
    subst h3
    exact ⟨rfl, rfl, Finset.filter_subset _ _⟩
  · cases h

/-! ## The claims -/

/-- C1: on two well-formed manifests (distinct keys each), `diff_manifests`
returns Added = keys(new) − keys(old), Removed = keys(old) − keys(new), and
Changed = the common keys whose `"hash"` values differ; a common key with
differing fingerprints is in Changed no matter the sizes, and a common key
with equal fingerprints is in none of the three sets. -/
theorem claim_C1 (m1 m2 : Manifest)
    (h1 : (manifestKeys m1).Nodup) (h2 : (manifestKeys m2).Nodup) :
    ∃ added removed changed : Finset String,
      diff_manifests (manifestToJson m1) (manifestToJson m2) =
        .ok (added, removed, changed) ∧
      added = (manifestKeys m2).toFinset \ (manifestKeys m1).toFinset ∧
      removed = (manifestKeys m1).toFinset \ (manifestKeys m2).toFinset ∧
      changed = ((manifestKeys m1).toFinset ∩ (manifestKeys m2).toFinset).filter
        (fun f => (lookupLastEntry m1 f).map Entry.hash ≠
          (lookupLastEntry m2 f).map Entry.hash) ∧
      (∀ f e1 e2, lookupLastEntry m1 f = some e1 → lookupLastEntry m2 f = some e2 →
        e1.hash ≠ e2.hash → f ∈ changed) ∧
      (∀ f e1 e2, lookupLastEntry m1 f = some e1 → lookupLastEntry m2 f = some e2 →
        e1.hash = e2.hash → f ∉ added ∧ f ∉ removed ∧ f ∉ changed) := by
  refine ⟨_, _, _, diff_manifests_built m1 m2 h1 h2, rfl, rfl, rfl, ?_, ?_⟩
  · intro f e1 e2 he1 he2 hne
    rw [Finset.mem_filter]
    refine ⟨?_, ?_⟩
    · rw [Finset.mem_inter, List.mem_toFinset, List.mem_toFinset]
      exact ⟨List.mem_map_of_mem Prod.fst (lookupLastEntry_some_mem he1),
        List.mem_map_of_mem Prod.fst (lookupLastEntry_some_mem he2)⟩
    · show (lookupLastEntry m1 f).map Entry.hash ≠ (lookupLastEntry m2 f).map Entry.hash
      rw [he1, he2]
      intro hc
      exact hne (Option.some.inj hc)
  · intro f e1 e2 he1 he2 heq
    have hm1 : f ∈ (manifestKeys m1).toFinset :=
      List.mem_toFinset.mpr (List.mem_map_of_mem Prod.fst (lookupLastEntry_some_mem he1))
    have hm2 : f ∈ (manifestKeys m2).toFinset :=
      List.mem_toFinset.mpr (List.mem_map_of_mem Prod.fst (lookupLastEntry_some_mem he2))
    refine ⟨?_, ?_, ?_⟩
    · intro hc
      exact (Finset.mem_sdiff.mp hc).2 hm1
    · intro hc
      exact (Finset.mem_sdiff.mp hc).2 hm2
    · intro hc
      have hp := (Finset.mem_filter.mp hc).2
      rw [he1, he2] at hp
      exact hp (by simp [heq])

/-- C1 witness: the full diff law at two concrete one-entry manifests whose
common key has equal sizes but different fingerprints. -/
theorem claim_C1_witness :
    ∃ added removed changed : Finset String,
      diff_manifests (manifestToJson [("a", ⟨"x", 1⟩)]) (manifestToJson [("a", ⟨"y", 1⟩)]) =
        .ok (added, removed, changed) ∧
      added = (manifestKeys [("a", ⟨"y", 1⟩)]).toFinset \
        (manifestKeys [("a", ⟨"x", 1⟩)]).toFinset ∧
      removed = (manifestKeys [("a", ⟨"x", 1⟩)]).toFinset \
        (manifestKeys [("a", ⟨"y", 1⟩)]).toFinset ∧
      changed = ((manifestKeys [("a", ⟨"x", 1⟩)]).toFinset ∩
          (manifestKeys [("a", ⟨"y", 1⟩)]).toFinset).filter
        (fun f => (lookupLastEntry [("a", ⟨"x", 1⟩)] f).map Entry.hash ≠
          (lookupLastEntry [("a", ⟨"y", 1⟩)] f).map Entry.hash) ∧
      (∀ f e1 e2, lookupLastEntry [("a", ⟨"x", 1⟩)] f = some e1 →
        lookupLastEntry [("a", ⟨"y", 1⟩)] f = some e2 →
        e1.hash ≠ e2.hash → f ∈ changed) ∧
      (∀ f e1 e2, lookupLastEntry [("a", ⟨"x", 1⟩)] f = some e1 →
        lookupLastEntry [("a", ⟨"y", 1⟩)] f = some e2 →
        e1.hash = e2.hash → f ∉ added ∧ f ∉ removed ∧ f ∉ changed) := by
  exact claim_C1 [("a", ⟨"x", 1⟩)] [("a", ⟨"y", 1⟩)] (by decide) (by decide)

/-- C2: saving any manifest and loading the result round-trips losslessly:
the loaded JSON is exactly the manifest's JSON image, and that image
determines the manifest — same keys in order, same fingerprint string and
integer size at every key. -/
theorem claim_C2 :
    (∀ m : Manifest, load_manifest (save_manifest m) = .ok (manifestToJson m)) ∧
    (∀ m m' : Manifest, manifestToJson m = manifestToJson m' → m = m') := by
  refine ⟨fun m => jsonLoads_save_manifest m, ?_⟩
  intro m m' h
  rw [manifestToJson, manifestToJson] at h
  injection h with h'
  exact manifestJsonObj_inj h'

/-- C2 witness: the round trip and the injectivity at a concrete manifest. -/
theorem claim_C2_witness :
    load_manifest (save_manifest [("a", ⟨"h1", 1⟩)]) =
      .ok (manifestToJson [("a", ⟨"h1", 1⟩)]) ∧
    ([("a", ⟨"h1", 1⟩)] : Manifest) = [("a", ⟨"h1", 1⟩)] :=
  ⟨claim_C2.1 [("a", ⟨"h1", 1⟩)],
   claim_C2.2 [("a", ⟨"h1", 1⟩)] [("a", ⟨"h1", 1⟩)] rfl⟩

/-- C3: in every successful `extract_differential` run with an output
directory, exactly the Added ∪ Changed files are copied, each under its
identical relative path with byte-identical source content; every other
path of the output directory — the Removed files included, which are
disjoint from Added and Changed — is left exactly as it was, and no file
present before is ever deleted. -/
theorem claim_C3 {fs : FsTree} {srcDir : List String} {oldText : String} {out : OutDir}
    {res : (Finset String × Finset String × Finset String) × OutDir}
    (h : extract_differential fs srcDir oldText out = .ok res) :
    ∀ added removed changed outF,
      res = ((added, removed, changed), outF) →
      (∀ p ∈ added ∪ changed,
        ∃ b, readFileQ fs (srcDir ++ splitPath p) = some b ∧ lookupFile outF p = some b) ∧
      (∀ p, p ∉ added ∪ changed → lookupFile outF p = lookupFile out p) ∧
      (∀ p ∈ removed, p ∉ added ∧ p ∉ changed ∧ lookupFile outF p = lookupFile out p) ∧
      (∀ p b, lookupFile out p = some b → ∃ b', lookupFile outF p = some b') := by
  intro added removed changed outF hres
  obtain ⟨oldJ, a0, r0, c0, outF0, hload, hdiff, hcopy, heq⟩ := extract_differential_ok h
  have hinj := hres.symm.trans heq
  injection hinj with hp1 hp2
  injection hp1 with hp3 hp4
  injection hp4 with hp5 hp6
  subst hp3
  subst hp5
  subst hp6
  subst hp2
  obtain ⟨hA, hB⟩ := copy_files_ok _ fs srcDir out outF hcopy
  have hmemL : ∀ p : String,
      p ∈ added.sort (· ≤ ·) ++ changed.sort (· ≤ ·) ↔ p ∈ added ∪ changed := by
    intro p
    rw [List.mem_append, Finset.mem_sort, Finset.mem_sort, Finset.mem_union]
  obtain ⟨o1, o2, ho1, ho2⟩ := diff_manifests_ok_obj hdiff
  subst ho1
  rw [ho2] at hdiff
  obtain ⟨ha, hr, hc⟩ := diff_manifests_obj_ok hdiff
  have hdisj : ∀ p ∈ removed, p ∉ added ∧ p ∉ changed := by
    intro p hp
    rw [hr, Finset.mem_sdiff] at hp
    constructor
    · intro hin
      rw [ha, Finset.mem_sdiff] at hin
      exact hp.2 hin.1
    · intro hin
      exact hp.2 (Finset.mem_inter.mp (hc hin)).2
  refine ⟨?_, ?_, ?_, ?_⟩
  · intro p hp
    exact hA p ((hmemL p).mpr hp)
  · intro p hp
    exact hB p (fun hin => hp ((hmemL p).mp hin))
  · intro p hp
    refine ⟨(hdisj p hp).1, (hdisj p hp).2, ?_⟩
    apply hB p
    intro hin
    rcases Finset.mem_union.mp ((hmemL p).mp hin) with hin' | hin'
    · exact (hdisj p hp).1 hin'
    · exact (hdisj p hp).2 hin'
  · exact fun p b hb => copy_files_never_deletes _ fs srcDir out outF hcopy p b hb

set_option maxRecDepth 200000 in
/-- C3 witness: a concrete run against the empty old manifest copies the one
added source file byte-identically. -/
theorem claim_C3_witness :
    ∃ b, readFileQ snapshotA (([] : List String) ++ splitPath "f") = some b ∧
      lookupFile [("f", [97])] "f" = some b := by
  have hsort1 : ({"f"} : Finset String).sort (· ≤ ·) = ["f"] := Finset.sort_singleton _ _
  have hsort0 : (∅ : Finset String).sort (· ≤ ·) = [] := Finset.sort_empty _
  have hext : extract_differential snapshotA [] "\x7b\x7d" [] =
      .ok ((({"f"} : Finset String), (∅ : Finset String), (∅ : Finset String)),
        [("f", [97])]) := by
    rw [extract_differential]
    rw [show load_manifest "\x7b\x7d" = .ok (.obj .nil) from by decide]
    simp only [bind, Except.bind]
    rw [show diff_manifests (.obj .nil) (manifestToJson (build_manifest snapshotA [])) =
      .ok (({"f"} : Finset String), (∅ : Finset String), (∅ : Finset String)) from by decide]
    simp only [bind, Except.bind]
    rw [hsort1, hsort0]
    rw [show copy_files (["f"] ++ []) snapshotA [] [] = .ok [("f", [97])] from by decide]
    rfl
  exact (claim_C3 hext {"f"} ∅ ∅ [("f", [97])] rfl).1 "f" (by decide)

/-- C8: the worker count and the completion order never affect the built
manifest's content — any two builds of the unchanged tree agree at every
key, and diffing them (in particular diffing the canonical build against
itself) yields empty Added, Removed and Changed. -/
theorem claim_C8 (fs : FsTree) (root : List String) (sub : FsTree)
    (t1 t2 : Nat) (sched1 sched2 : List (List String))
    (hok : fsOk fs = true) (hres : resolvePath fs root = some sub)
    (hs1 : sched1.Perm (osWalk fs root)) (hs2 : sched2.Perm (osWalk fs root)) :
    (∀ k, lookupLastEntry (build_manifest_sched fs root t1 sched1) k =
      lookupLastEntry (build_manifest_sched fs root t2 sched2) k) ∧
    diff_manifests (manifestToJson (build_manifest_sched fs root t1 sched1))
      (manifestToJson (build_manifest_sched fs root t2 sched2)) = .ok (∅, ∅, ∅) ∧
    diff_manifests (manifestToJson (build_manifest fs root))
      (manifestToJson (build_manifest fs root)) = .ok (∅, ∅, ∅) := by
  have hp : (build_manifest_sched fs root t1 sched1).Perm
      (build_manifest_sched fs root t2 sched2) := by
    rw [build_manifest_sched, build_manifest_sched]
    exact (hs1.trans hs2.symm).map _
  have hnd1 : (manifestKeys (build_manifest_sched fs root t1 sched1)).Nodup :=
    built_keys_nodup hok hres hs1
  have hnd2 : (manifestKeys (build_manifest_sched fs root t2 sched2)).Nodup :=
    built_keys_nodup hok hres hs2
  have hlook : ∀ k, lookupLastEntry (build_manifest_sched fs root t1 sched1) k =
      lookupLastEntry (build_manifest_sched fs root t2 sched2) k :=
    fun k => lookupLastEntry_perm hp hnd1 k
  have hkeys : (manifestKeys (build_manifest_sched fs root t1 sched1)).toFinset =
      (manifestKeys (build_manifest_sched fs root t2 sched2)).toFinset := by
    apply Finset.ext
    intro x
    rw [List.mem_toFinset, List.mem_toFinset]
    exact (manifestKeys_perm hp).mem_iff
  refine ⟨hlook, ?_, ?_⟩
  · rw [diff_manifests_built _ _ hnd1 hnd2, hkeys, Finset.sdiff_self]
    have hfil : ((manifestKeys (build_manifest_sched fs root t2 sched2)).toFinset ∩
        (manifestKeys (build_manifest_sched fs root t2 sched2)).toFinset).filter
        (fun f => (lookupLastEntry (build_manifest_sched fs root t1 sched1) f).map
            Entry.hash ≠
          (lookupLastEntry (build_manifest_sched fs root t2 sched2) f).map Entry.hash) =
        ∅ := by
      apply Finset.filter_false_of_mem
      intro f _
      rw [hlook f]
      exact fun hcon => hcon rfl
    rw [hfil]
  · have hnd : (manifestKeys (build_manifest_sched fs root (auto_threads none)
        (osWalk fs root))).Nodup :=
      built_keys_nodup hok hres (List.Perm.refl _)
    rw [build_manifest, diff_manifests_built _ _ hnd hnd, Finset.sdiff_self]
    have hfil : ((manifestKeys (build_manifest_sched fs root (auto_threads none)
          (osWalk fs root))).toFinset ∩
        (manifestKeys (build_manifest_sched fs root (auto_threads none)
          (osWalk fs root))).toFinset).filter
        (fun f => (lookupLastEntry (build_manifest_sched fs root (auto_threads none)
            (osWalk fs root)) f).map Entry.hash ≠
          (lookupLastEntry (build_manifest_sched fs root (auto_threads none)
            (osWalk fs root)) f).map Entry.hash) = ∅ := by
      apply Finset.filter_false_of_mem
      intro f _
      exact fun hcon => hcon rfl
    rw [hfil]

/-- C8 witness: at the concrete two-file tree, two completion orders (the
walk order and its reverse) with different thread counts, and the
self-diff of the canonical build, are all covered by the theorem. -/
theorem claim_C8_witness :
    diff_manifests (manifestToJson (build_manifest scenarioFs ["d"]))
      (manifestToJson (build_manifest scenarioFs ["d"])) = .ok (∅, ∅, ∅) :=
  (claim_C8 scenarioFs ["d"] twoFileDir 1 2
    (osWalk scenarioFs ["d"]) ((osWalk scenarioFs ["d"]).reverse)
    (by decide) (by decide) (List.Perm.refl _) (List.reverse_perm _)).2.2

set_option maxRecDepth 200000 in
/-- C4: a manifest entry's fingerprint is the SHA-256 hex digest of the
file's full byte contents, computed by feeding 65536-byte chunks to the
hasher, and its size is the file's byte count; for a directory with
`a.txt` = "hello" and `b.txt` = "world" the manifest carries the SHA-256
digests of those strings with size 5 each. -/
theorem claim_C4 :
    (∀ content : List Nat, hash_file content = sha256hex content) ∧
    (∀ (fs : FsTree) (dir full : List String) (c : List Nat),
      readFileQ fs full = some c →
      _hash_file_task fs fs dir full =
        (joinPath (full.drop dir.length), ⟨sha256hex c, (c.length : Int)⟩)) ∧
    build_manifest scenarioFs ["d"] =
      [("a.txt", ⟨"2cf24dba5fb0a30e26e83b2ac5b9e29e1b161e5c1fa7425e73043362938b9824", 5⟩),
       ("b.txt", ⟨"486ea46224d1bb4fb680f34f7c9ad96a8f24ec88be73ea8e5a6c65260e9cb8a7", 5⟩)] := by
  refine ⟨fun content => hash_file_eq_sha256 content 65536 (by omega), ?_, by decide⟩
  intro fs dir full c hread
  rw [_hash_file_task, readBytesD, hread, Option.getD_some,
    hash_file_eq_sha256 c 65536 (by omega)]

/-- C4 witness: the chunked digest law and a per-file task instance at a
concrete tree. -/
theorem claim_C4_witness :
    hash_file [1, 2, 3] = sha256hex [1, 2, 3] ∧
    _hash_file_task snapshotA snapshotA [] ["f"] =
      ("f", ⟨sha256hex [97], (1 : Int)⟩) :=
  ⟨claim_C4.1 [1, 2, 3], by
    have h := claim_C4.2.1 snapshotA [] ["f"] [97] (by decide)
    simpa using h⟩

/-- C5 counterexample: a root that does not exist raises nothing —
`build_manifest` silently succeeds with the empty manifest, because
`os.walk` is called with its default `onerror=None`. -/
theorem claim_C5_counterexample :
    resolvePath (FsTree.dir true .nil) ["missing"] = none ∧
    build_manifest (FsTree.dir true .nil) ["missing"] = [] := by decide

/-- C5 (amended): with `os.walk`'s default `onerror=None`, a root that does
not resolve yields an empty walk, so `build_manifest` returns the empty
manifest instead of failing; an unreadable subdirectory contributes nothing
to the walk and is skipped with no warning collected anywhere. -/
theorem claim_C5 :
    (∀ (fs : FsTree) (root : List String), resolvePath fs root = none →
      build_manifest fs root = []) ∧
    (∀ (pre : List String) (n : String) (es rest : FsEntries),
      walkTree pre (.dir true (.cons n (.dir false es) rest)) =
        walkTree pre (.dir true rest)) := by
  constructor
  · intro fs root h
    rw [build_manifest, build_manifest_sched, osWalk_none h]
    rfl
  · intro pre n es rest
    rw [walkTree, walkTree, filesOfEntries, walkSubdirs, walkTree]
    rw [List.nil_append]

/-- C5 witness: both amended behaviors at concrete trees. -/
theorem claim_C5_witness :
    build_manifest snapshotA ["nope"] = [] ∧
    walkTree [] (.dir true (.cons "locked" (.dir false .nil) .nil)) =
      walkTree [] (.dir true .nil) :=
  ⟨claim_C5.1 snapshotA ["nope"] (by decide), claim_C5.2 [] "locked" .nil .nil⟩

/-- C6 counterexample: a non-object top level is not rejected —
`load_manifest` returns the parsed array unchanged, with no ParseError. -/
theorem claim_C6_counterexample :
    load_manifest "[1, 2, 3]" =
      .ok (.arr (.cons (.num 1) (.cons (.num 2) (.cons (.num 3) .nil)))) := by
  decide

/-- C6 (amended): `load_manifest` fails only on syntactically invalid JSON;
any syntactically valid input is returned without shape validation — a
non-object top level and an entry missing required fields both load
successfully, while a true syntax error does fail. -/
theorem claim_C6 :
    load_manifest "[1, 2, 3]" =
      .ok (.arr (.cons (.num 1) (.cons (.num 2) (.cons (.num 3) .nil)))) ∧
    load_manifest "\x7b\"k\": \x7b\"size\": 1\x7d\x7d" =
      .ok (.obj (.cons "k" (.obj (.cons "size" (.num 1) .nil)) .nil)) ∧
    load_manifest "\x7b" = .error () := by
  refine ⟨by decide, by decide, by decide⟩

/-- C7 counterexample: with two failing tasks in a batch, the collection
loop stops at the first failure and reports it alone; the spec's aggregate
of the full failure list would be different. -/
theorem claim_C7_counterexample :
    collectResults [(.error "e1" : Except String Nat), .ok 7, .error "e2"] = .error "e1" ∧
    failuresOf [(.error "e1" : Except String Nat), .ok 7, .error "e2"] = ["e1", "e2"] ∧
    specAggregateCollect [(.error "e1" : Except String Nat), .ok 7, .error "e2"] =
      .error ["e1", "e2"] ∧
    ("e1" : String) ≠ "e2" := by
  refine ⟨by decide, by decide, by decide, by decide⟩

/-- C7 (amended): when any task of a batch fails, the step fails with the
first failure alone — `fut.result()` re-raises that exception and the loop
is abandoned, so later failures are never collected and no aggregate error
is built; only a batch with no failures yields the full result list. -/
theorem claim_C7 (α : Type) :
    (∀ (rs : List (Except String α)) (e : String) (rest : List String),
      failuresOf rs = e :: rest → collectResults rs = .error e) ∧
    (∀ rs : List (Except String α), failuresOf rs = [] →
      collectResults rs =
        .ok (rs.filterMap (fun r => match r with | .ok a => some a | .error _ => none))) :=
  ⟨fun rs e rest h => collectResults_first_error rs e rest h,
   fun rs h => collectResults_no_failure rs h⟩

/-- C7 witness: the first-failure law and the all-success law at concrete
batches. -/
theorem claim_C7_witness :
    collectResults [(.error "x" : Except String Nat), .error "y"] = .error "x" ∧
    collectResults [(.ok 1 : Except String Nat), .ok 2] = .ok [1, 2] :=
  ⟨(claim_C7 Nat).1 [.error "x", .error "y"] "x" ["y"] (by decide),
   by
    have h := (claim_C7 Nat).2 [.ok 1, .ok 2] (by decide)
    simpa using h⟩

set_option maxRecDepth 200000 in
/-- C9 counterexample: the hash is read first, the size is stat'ed by a
separate call; if the file changes in between (one byte 97, then two bytes
98 98) the recorded entry pairs the first version's hash with the second
version's size, matching neither version. -/
theorem claim_C9_counterexample :
    _hash_file_task snapshotA snapshotB [] ["f"] = ("f", ⟨sha256hex [97], 2⟩) ∧
    (⟨sha256hex [97], 2⟩ : Entry) ≠ ⟨sha256hex [97], 1⟩ ∧
    (⟨sha256hex [97], 2⟩ : Entry) ≠ ⟨sha256hex [98, 98], 2⟩ := by
  refine ⟨by decide, by decide, by decide⟩

/-- C9 (amended): size and fingerprint come from two separate filesystem
accesses — the hashing read and a following `os.path.getsize` — so only
when the file is unchanged between them is the entry the digest-and-length
of one content; under modification the hash reflects the version read and
the size the version stat'ed. -/
theorem claim_C9 :
    (∀ (fs : FsTree) (dir full : List String) (c : List Nat),
      readFileQ fs full = some c →
      _hash_file_task fs fs dir full =
        (joinPath (full.drop dir.length), ⟨sha256hex c, (c.length : Int)⟩)) ∧
    (∀ (fs1 fs2 : FsTree) (dir full : List String) (c1 c2 : List Nat),
      readFileQ fs1 full = some c1 → readFileQ fs2 full = some c2 →
      _hash_file_task fs1 fs2 dir full =
        (joinPath (full.drop dir.length), ⟨sha256hex c1, (c2.length : Int)⟩)) := by
  constructor
  · intro fs dir full c hread
    rw [_hash_file_task, readBytesD, hread, Option.getD_some,
      hash_file_eq_sha256 c 65536 (by omega)]
  · intro fs1 fs2 dir full c1 c2 h1 h2
    rw [_hash_file_task, readBytesD, readBytesD, h1, h2, Option.getD_some, Option.getD_some,
      hash_file_eq_sha256 c1 65536 (by omega)]

/-- C9 witness: the two-snapshot law at the concrete modified file. -/
theorem claim_C9_witness :
    _hash_file_task snapshotA snapshotB [] ["f"] =
      (joinPath (["f"].drop ([] : List String).length), ⟨sha256hex [97], (2 : Int)⟩) :=
  claim_C9.2 snapshotA snapshotB [] ["f"] [97] [98, 98] (by decide) (by decide)

/-- C10: `diff_manifests` is safe exactly under the unvalidated precondition
that every common key's entry is a dict with a `"hash"` field — then the
lookups all succeed and the diff returns; yet `load_manifest` accepts any
well-formed JSON with no shape check, and on such an accepted manifest
whose entries lack `"hash"` the subsequent diff raises (`KeyError`). -/
theorem claim_C10 :
    (∀ o1 o2 : JsonObj,
      (∀ f ∈ o1.keyList.toFinset ∩ o2.keyList.toFinset,
        (hashField o1 f).isSome ∧ (hashField o2 f).isSome) →
      ∃ res, diff_manifests (.obj o1) (.obj o2) = .ok res) ∧
    load_manifest "\x7b\"a\": \x7b\x7d\x7d" = .ok (.obj (.cons "a" (.obj .nil) .nil)) ∧
    diff_manifests (.obj (.cons "a" (.obj .nil) .nil))
      (.obj (.cons "a" (.obj .nil) .nil)) = .error () := by
  refine ⟨?_, by decide, by decide⟩
  intro o1 o2 hpre
  rw [diff_manifests]
  rw [if_pos hpre]
  exact ⟨_, rfl⟩

/-- C10 witness: the precondition theorem applied to a well-shaped manifest
object. -/
theorem claim_C10_witness :
    ∃ res, diff_manifests (.obj (manifestJsonObj [("a", ⟨"h1", 1⟩)]))
      (.obj (manifestJsonObj [("a", ⟨"h2", 1⟩)])) = .ok res :=
  claim_C10.1 (manifestJsonObj [("a", ⟨"h1", 1⟩)]) (manifestJsonObj [("a", ⟨"h2", 1⟩)])
    (by decide)

end DirDiff
